import Mathlib

/-!
Verification development for the honeybee-core extension-properties protocol
(`honeybee/properties.py`).

The Python module implements a generic aggregation protocol on a base class
of six host-properties variants (Model, Room, Face, Shade, Aperture, Door).
Extension attributes are opaque, externally owned objects that optionally
implement `duplicate`, `add_prefix`, `reset_to_default`, `to_dict` and
`from_dict`.  The base class enumerates the public, non-reserved member names
of the properties object, probes each current value for the relevant
capability, skips silently when the capability is absent, and otherwise
invokes it, wrapping or swallowing exceptions exactly as the source does.

This file shallowly embeds that protocol: Python dictionaries become
association lists (`Dict`), extension attributes become records of optional
capability functions (`ExtVal`), exceptions become an explicit error type
(`PyErr`) threaded through `Except`, and each aggregator loop becomes a fold
over the enumerated name list.
-/

/-- Python exceptions, restricted to the shapes the module distinguishes:
`KeyError` (caught in `_load_extension_attr_from_dict`), `AttributeError`
(raised raw by `getattr` on a missing name), and a generic `Exception`
carrying a message (used for the wrapping re-raises). -/
inductive PyErr : Type where
  | keyError (k : String)
  | attributeError (m : String)
  | exception (m : String)
deriving DecidableEq, Repr

/-- The message text of an error, as interpolated by the format strings of
the wrapping re-raises in the source. -/
def errText : PyErr → String
  | .keyError k => "'" ++ k ++ "'"
  | .attributeError m => m
  | .exception m => m

/-- A JSON-like nested key-value structure, the shape produced and consumed
by `to_dict` / `from_dict`. -/
inductive JVal : Type where
  | str (s : String)
  | num (n : Int)
  | boolean (b : Bool)
  | obj (entries : List (String × JVal))

/-- A Python dictionary: ordered keys, unique by construction in the source. -/
abbrev Dict := List (String × JVal)

/-- The keys of a dictionary, in order. -/
def dictKeys (d : Dict) : List String := d.map Prod.fst

/-- Look up a key (first occurrence), like Python `d[k]` returning `none`
where Python would raise `KeyError`. -/
def dictGet (d : Dict) (k : String) : Option JVal :=
  (d.find? (fun p => p.1 == k)).map Prod.snd

/-- Python dict assignment semantics: replace the value in place when the key
is present (keeping its position), otherwise append the pair at the end. -/
def dictInsert (d : Dict) (k : String) (v : JVal) : Dict :=
  if d.any (fun p => p.1 == k) then
    d.map (fun p => if p.1 = k then (k, v) else p)
  else
    d ++ [(k, v)]

/-- Python `base.update(other)`: fold the pairs of `other` into `base` in
order, later writers overwriting earlier values at the same key. -/
def dictUpdate (d e : Dict) : Dict :=
  e.foldl (fun acc kv => dictInsert acc kv.1 kv.2) d

set_option genSizeOfSpec false in
/-- An extension attribute value: an opaque object of an externally owned
type, optionally exposing any subset of the five capabilities.  `rep` is the
object's string representation (Python `format(var)` / `repr`), used in the
wrapping error messages.  `toDict` receives `some abridged` when called as
`to_dict(abridged)` and `none` when called with no argument (the model-level
call).  `fromDict` models the classmethod `var.__class__.from_dict(data,
host)`. -/
inductive ExtVal : Type where
  | mk (rep : String)
       (dup : Option (Nat → Except PyErr ExtVal))
       (addPfx : Option (String → Except PyErr ExtVal))
       (reset : Option (Unit → Except PyErr ExtVal))
       (toDict : Option (Option Bool → Except PyErr Dict))
       (fromDict : Option (JVal → Nat → Except PyErr ExtVal))

def ExtVal.rep : ExtVal → String
  | .mk r _ _ _ _ _ => r

def ExtVal.dup : ExtVal → Option (Nat → Except PyErr ExtVal)
  | .mk _ d _ _ _ _ => d

def ExtVal.addPfx : ExtVal → Option (String → Except PyErr ExtVal)
  | .mk _ _ a _ _ _ => a

def ExtVal.reset : ExtVal → Option (Unit → Except PyErr ExtVal)
  | .mk _ _ _ r _ _ => r

def ExtVal.toDict : ExtVal → Option (Option Bool → Except PyErr Dict)
  | .mk _ _ _ _ t _ => t

def ExtVal.fromDict : ExtVal → Option (JVal → Nat → Except PyErr ExtVal)
  | .mk _ _ _ _ _ f => f

/-- How an extension name is attached to a Properties instance: `accessor`
is the standard honeybee pattern, a class-level property whose getter reads
the underscore-prefixed instance slot; `plain` is a plain public instance
attribute with the same name. -/
inductive Slot : Type where
  | accessor
  | plain
deriving DecidableEq, Repr

/-- One attached extension attribute.  `value` is what `getattr(self, name)`
returns (the underscore slot for `accessor`, the public attribute for
`plain`); `shadow` is the content of the `'_' + name` slot of a `plain`
entry when one has been written separately. -/
structure ExtEntry : Type where
  name : String
  slot : Slot
  value : ExtVal
  shadow : Option ExtVal

/-- The six concrete host-properties classes. -/
inductive Variant : Type where
  | model
  | room
  | face
  | shade
  | aperture
  | door
deriving DecidableEq, Repr

/-- A Properties instance: its class, the identity of its host, the attached
extension attributes, and any underscore-only slots written by `setattr` for
names that have no public member (`hidden`). -/
structure Props : Type where
  variant : Variant
  hostId : Nat
  exts : List ExtEntry
  hidden : List (String × ExtVal)

/-- The public methods defined on each Properties class (they appear in
`dir(self)` alongside the extension attributes). -/
def variantMethods : Variant → List String
  | .model => ["ToString", "apply_properties_from_dict", "host", "to_dict"]
  | _ => ["ToString", "add_prefix", "host", "reset_to_default", "to_dict"]

/-- Underscore-prefixed members always present on a Properties instance. -/
def internalMembers : List String :=
  ["_host", "_do_not_duplicate", "__class__", "__init__", "__repr__"]

/-- The class attribute `_do_not_duplicate = ('host', 'to_dict', 'ToString')`. -/
def doNotDuplicate : List String := ["host", "to_dict", "ToString"]

/-- Python `atr.startswith('_')`. -/
def underscored (s : String) : Bool :=
  match s.toList with
  | [] => false
  | c :: _ => c == '_'

/-- Byte-wise (here: character-wise) ordering of strings, as Python's `sorted`
uses inside `dir`. -/
def charListLe : List Char → List Char → Bool
  | [], _ => true
  | _ :: _, [] => false
  | a :: as, b :: bs => if a = b then charListLe as bs else decide (a < b)

def strLe (a b : String) : Bool := charListLe a.toList b.toList

/-- Insert into a sorted list of names. -/
def insertSorted (a : String) : List String → List String
  | [] => [a]
  | b :: l => if strLe a b then a :: b :: l else b :: insertSorted a l

/-- Insertion sort, modelling the sorted output of `dir`. -/
def sortNames : List String → List String
  | [] => []
  | a :: l => insertSorted a (sortNames l)

/-- Every member name visible on the instance (methods, internal slots,
extension attributes and their underscore slots). -/
def memberNames (p : Props) : List String :=
  variantMethods p.variant ++ internalMembers ++
    p.exts.map ExtEntry.name ++
    p.exts.map (fun e => "_" ++ e.name) ++
    p.hidden.map (fun h => "_" ++ h.1)

/-- Python `dir(self)`: the sorted, duplicate-free list of member names. -/
def dirNames (p : Props) : List String :=
  sortNames (memberNames p).dedup

/-- The extension-name enumeration shared by the five base-class operations:
`[atr for atr in dir(self) if not atr.startswith('_') and atr not in
self._do_not_duplicate]`. -/
def extensionAttrNames (p : Props) : List String :=
  (dirNames p).filter (fun a => !underscored a && !(doNotDuplicate.contains a))

/-- The inline enumeration of `ModelProperties.to_dict`:
`[atr for atr in dir(self) if not atr.startswith('_') and atr != 'host']`. -/
def modelAttrNames (p : Props) : List String :=
  (dirNames p).filter (fun a => !underscored a && a != "host")

/-- What `getattr(self, name)` returns, as far as capability probing can
tell: a bound method (which has none of the five capability attributes) or
an extension attribute value. -/
inductive Member : Type where
  | meth
  | ext (v : ExtVal)

/-- The attached extension entry with the given public name, if any. -/
def entryAt (p : Props) (n : String) : Option ExtEntry :=
  p.exts.find? (fun e => e.name == n)

/-- `getattr(self, n)`: an attached extension attribute when one exists
under that name, else a bound method when the class defines one, else
`none` (Python raises `AttributeError`). -/
def getattrMem (p : Props) (n : String) : Option Member :=
  match entryAt p n with
  | some e => some (.ext e.value)
  | none =>
    if (variantMethods p.variant).contains n || internalMembers.contains n then
      some .meth
    else
      none

/-- The effect on an entry of `setattr(self, '_' + name, w)`: an `accessor`
entry's public view reads the underscore slot, so its value changes; a
`plain` entry keeps its public value and only the shadow slot is written. -/
def updUnder (w : ExtVal) (e : ExtEntry) : ExtEntry :=
  match e.slot with
  | .accessor => { e with value := w }
  | .plain => { e with shadow := some w }

/-- `setattr(self, '_' + n, w)`.  When no entry with public name `n` exists
the write lands in a fresh hidden underscore slot. -/
def setUnder (p : Props) (n : String) (w : ExtVal) : Props :=
  if p.exts.any (fun e => e.name == n) then
    { p with exts := p.exts.map (fun e => if e.name = n then updUnder w e else e) }
  else
    { p with hidden := p.hidden ++ [(n, w)] }

/-- In-place mutation of the object reachable under the public name `n`
(used by `add_prefix` and `reset_to_default`, which mutate `var` itself). -/
def updPublic (w : ExtVal) (e : ExtEntry) : ExtEntry := { e with value := w }

def setPublic (p : Props) (n : String) (w : ExtVal) : Props :=
  { p with exts := p.exts.map (fun e => if e.name = n then updPublic w e else e) }

/-- The outcome of one loop iteration of an aggregator operation: skip the
name, store a freshly produced value or merge a dictionary, or raise. -/
inductive SDec (α : Type) : Type where
  | skip
  | store (w : α)
  | fail (e : PyErr)

def SDec.isFail {α : Type} : SDec α → Bool
  | .fail _ => true
  | _ => false

/-- Left fold threading `Except`: the loop stops at the first uncaught
exception, exactly like the Python `for` loops. -/
def foldE {σ : Type} (step : σ → String → Except PyErr σ) : σ → List String → Except PyErr σ
  | s, [] => Except.ok s
  | s, a :: l =>
    match step s a with
    | .ok t => foldE step t l
    | .error e => Except.error e

/-- Turn a per-name decision into a state-threading loop step. -/
def stepOf (dec : Props → String → SDec ExtVal) (upd : Props → String → ExtVal → Props)
    (s : Props) (a : String) : Except PyErr Props :=
  match dec s a with
  | .skip => Except.ok s
  | .store w => Except.ok (upd s a w)
  | .fail e => Except.error e

/-- Loop body of `_Properties._duplicate_extension_attr`:
`var = getattr(original_properties, atr)` (an `AttributeError` here escapes
unwrapped); skip unless `hasattr(var, 'duplicate')`; otherwise
`var.duplicate(self.host)`, wrapping any failure as
`Exception('Failed to duplicate ...')`; the result is stored by
`setattr(self, '_' + atr, ...)`. -/
def dupDec (orig : Props) (s : Props) (a : String) : SDec ExtVal :=
  match getattrMem orig a with
  | none => .fail (.attributeError a)
  | some .meth => .skip
  | some (.ext v) =>
    match v.dup with
    | none => .skip
    | some f =>
      match f s.hostId with
      | .ok w => .store w
      | .error e => .fail (.exception ("Failed to duplicate " ++ v.rep ++ ": " ++ errText e))

/-- `_Properties._duplicate_extension_attr(self, original_properties)`. -/
def duplicateExtensionAttr (self orig : Props) : Except PyErr Props :=
  foldE (stepOf (dupDec orig) setUnder) self (extensionAttrNames self)

/-- Loop body of `_Properties._add_prefix_extension_attr`: skip unless
`hasattr(var, 'add_prefix')`; otherwise mutate `var` in place, wrapping any
failure as `Exception('Failed to add prefix ...')`. -/
def pfxDec (pre : String) (s : Props) (a : String) : SDec ExtVal :=
  match getattrMem s a with
  | none => .fail (.attributeError a)
  | some .meth => .skip
  | some (.ext v) =>
    match v.addPfx with
    | none => .skip
    | some f =>
      match f pre with
      | .ok w => .store w
      | .error e => .fail (.exception ("Failed to add prefix to " ++ v.rep ++ ": " ++ errText e))

/-- `_Properties._add_prefix_extension_attr(self, prefix)`. -/
def addPfxExtensionAttr (p : Props) (pre : String) : Except PyErr Props :=
  foldE (stepOf (pfxDec pre) setPublic) p (extensionAttrNames p)

/-- Loop body of `_Properties._reset_extension_attr_to_default`. -/
def resetDec (s : Props) (a : String) : SDec ExtVal :=
  match getattrMem s a with
  | none => .fail (.attributeError a)
  | some .meth => .skip
  | some (.ext v) =>
    match v.reset with
    | none => .skip
    | some f =>
      match f () with
      | .ok w => .store w
      | .error e => .fail (.exception ("Failed to reset_to_default for " ++ v.rep ++ ": " ++ errText e))

/-- `_Properties._reset_extension_attr_to_default(self)`. -/
def resetExtensionAttrToDefault (p : Props) : Except PyErr Props :=
  foldE (stepOf resetDec setPublic) p (extensionAttrNames p)

/-- Loop body of `_Properties._load_extension_attr_from_dict`: skip unless
`hasattr(var, 'from_dict')`; then `property_dict[atr]` (a missing key raises
`KeyError`, caught by the `except KeyError: pass`), then
`var.__class__.from_dict(sub, self.host)`.  Any `KeyError` raised inside the
`try` block is swallowed the same way; every other exception propagates
unwrapped.  A successful result is stored by `setattr(self, '_' + atr, ...)`. -/
def loadDec (d : Dict) (s : Props) (a : String) : SDec ExtVal :=
  match getattrMem s a with
  | none => .fail (.attributeError a)
  | some .meth => .skip
  | some (.ext v) =>
    match v.fromDict with
    | none => .skip
    | some f =>
      match dictGet d a with
      | none => .skip
      | some sub =>
        match f sub s.hostId with
        | .ok w => .store w
        | .error (.keyError _) => .skip
        | .error e => .fail e

/-- `_Properties._load_extension_attr_from_dict(self, property_dict)`. -/
def loadExtensionAttrFromDict (p : Props) (d : Dict) : Except PyErr Props :=
  foldE (stepOf (loadDec d) setUnder) p (extensionAttrNames p)

/-- Loop body of `_Properties._add_extension_attr_to_dict` (and of
`ModelProperties.to_dict`, which passes `ab = none` to model the
argument-less call `var.to_dict()`): skip unless `hasattr(var, 'to_dict')`;
otherwise `base.update(var.to_dict(...))`, wrapping any failure as
`Exception('Failed to convert ...')`. -/
def serDec (p : Props) (ab : Option Bool) (a : String) : SDec Dict :=
  match getattrMem p a with
  | none => .fail (.attributeError a)
  | some .meth => .skip
  | some (.ext v) =>
    match v.toDict with
    | none => .skip
    | some f =>
      match f ab with
      | .ok d => .store d
      | .error e => .fail (.exception ("Failed to convert " ++ v.rep ++ " to a dict: " ++ errText e))

def serStep (p : Props) (ab : Option Bool) (b : Dict) (a : String) : Except PyErr Dict :=
  match serDec p ab a with
  | .skip => Except.ok b
  | .store d => Except.ok (dictUpdate b d)
  | .fail e => Except.error e

def serFold (p : Props) (ab : Option Bool) (base : Dict) (names : List String) : Except PyErr Dict :=
  foldE (serStep p ab) base names

/-- `_Properties._add_extension_attr_to_dict(self, base, abridged, include)`:
iterate `include` when given, else the standard enumeration. -/
def addExtensionAttrToDict (p : Props) (base : Dict) (abridged : Bool)
    (incl : Option (List String)) : Except PyErr Dict :=
  serFold p (some abridged) base (incl.getD (extensionAttrNames p))

/-- The `"type"` tag each of the five non-model variants writes into its
serialized form (`<Tag>` or `<Tag>Abridged`). -/
def typeTag : Variant → Bool → String
  | .model, _ => "ModelProperties"
  | .room, false => "RoomProperties"
  | .room, true => "RoomPropertiesAbridged"
  | .face, false => "FaceProperties"
  | .face, true => "FacePropertiesAbridged"
  | .shade, false => "ShadeProperties"
  | .shade, true => "ShadePropertiesAbridged"
  | .aperture, false => "ApertureProperties"
  | .aperture, true => "AperturePropertiesAbridged"
  | .door, false => "DoorProperties"
  | .door, true => "DoorPropertiesAbridged"

/-- `to_dict(self, abridged=False, include=None)` of the five non-model
variants: build `{'type': <tag>}` and call `_add_extension_attr_to_dict`. -/
def hostToDict (p : Props) (abridged : Bool) (incl : Option (List String)) :
    Except PyErr Dict :=
  addExtensionAttrToDict p [("type", JVal.str (typeTag p.variant abridged))] abridged incl

/-- `ModelProperties.to_dict(self, include=None)`: no `abridged` parameter,
its own inline enumeration (excluding only underscore names and `'host'`),
and each extension's `to_dict` invoked with no argument. -/
def modelToDict (p : Props) (incl : Option (List String)) : Except PyErr Dict :=
  serFold p none [("type", JVal.str "ModelProperties")] (incl.getD (modelAttrNames p))


/-! ### Concrete instances used to exercise the theorems -/

/-- Project an `ok` result, with a fallback for the error case. -/
def okOrD : Except PyErr Dict → Dict
  | .ok t => t
  | .error _ => []

/-- Bounded substring test on strings (used to ask whether an error message
mentions a given name). -/
def containsSub (hay needle : String) : Bool :=
  (List.range (hay.toList.length + 1)).any (fun i => needle.toList.isPrefixOf (hay.toList.drop i))

def cPayload : JVal := JVal.obj [("program", JVal.str "office")]

def cNewEnergy : ExtVal := .mk "EnergyNew" none none none none none

def cOrigEnergyVal : ExtVal :=
  .mk "EnergyOrig" (some (fun _ => Except.ok cNewEnergy)) none none none none

def cSelfEnergyVal : ExtVal := .mk "EnergyDefault" none none none none none

def cSelf1 : Props :=
  { variant := .room, hostId := 5,
    exts := [{ name := "energy", slot := .accessor, value := cSelfEnergyVal, shadow := none }],
    hidden := [] }

def cOrig1 : Props :=
  { variant := .room, hostId := 2,
    exts := [{ name := "energy", slot := .accessor, value := cOrigEnergyVal, shadow := none }],
    hidden := [] }

def cFromDictKeyErr : JVal → Nat → Except PyErr ExtVal :=
  fun _ _ => Except.error (.keyError "people")

def cV2 : ExtVal := .mk "En2" none none none none (some cFromDictKeyErr)

def cP2 : Props :=
  { variant := .room, hostId := 3,
    exts := [{ name := "energy", slot := .accessor, value := cV2, shadow := none }],
    hidden := [] }

def cD2 : Dict := [("energy", JVal.str "garbage")]

def cFromDictTypeErr : JVal → Nat → Except PyErr ExtVal :=
  fun _ _ => Except.error (.exception "bad sub-map")

def cV2b : ExtVal := .mk "En2b" none none none none (some cFromDictTypeErr)

def cP2b : Props :=
  { variant := .room, hostId := 3,
    exts := [{ name := "energy", slot := .accessor, value := cV2b, shadow := none }],
    hidden := [] }

def cD2b : Dict := [("energy", JVal.num 7)]

def cV3 : ExtVal :=
  .mk "En3" none none none (some (fun _ => Except.ok [("energy", cPayload)])) none

def cV3r : ExtVal :=
  .mk "Rad3" none none none (some (fun _ => Except.ok [("radiance", JVal.str "mods")])) none

def cP3 : Props :=
  { variant := .face, hostId := 1,
    exts := [{ name := "energy", slot := .accessor, value := cV3, shadow := none },
             { name := "radiance", slot := .accessor, value := cV3r, shadow := none }],
    hidden := [] }

def cV4 : ExtVal :=
  .mk "Blob" none none none (some (fun _ => Except.error (.exception "boom"))) none

def cP4 : Props :=
  { variant := .room, hostId := 1,
    exts := [{ name := "energy", slot := .accessor, value := cV4, shadow := none }],
    hidden := [] }

def cMsg4 : String := "Failed to convert Blob to a dict: boom"

def cE5new : ExtVal :=
  .mk "En5New" none none none (some (fun _ => Except.ok [("energy", cPayload)])) none

def cE5 : ExtVal :=
  .mk "En5" none none none (some (fun _ => Except.ok [("energy", cPayload)]))
    (some (fun _ _ => Except.ok cE5new))

def cP5 : Props :=
  { variant := .room, hostId := 9,
    exts := [{ name := "energy", slot := .accessor, value := cE5, shadow := none }],
    hidden := [] }

def cMP6 : Props := { variant := .model, hostId := 0, exts := [], hidden := [] }

def cV7 : ExtVal :=
  .mk "En7" none none none
    (some (fun _ => Except.ok [("type", JVal.str "EVIL"), ("energy", JVal.str "x")])) none

def cP7 : Props :=
  { variant := .room, hostId := 1,
    exts := [{ name := "energy", slot := .accessor, value := cV7, shadow := none }],
    hidden := [] }

def cV7m : ExtVal :=
  .mk "En7m" none none none (some (fun _ => Except.ok [("energy", cPayload)])) none

def cP7m : Props :=
  { variant := .model, hostId := 1,
    exts := [{ name := "energy", slot := .accessor, value := cV7m, shadow := none }],
    hidden := [] }

def cV8w : ExtVal := .mk "En8renamed" none none none none none

def cV8 : ExtVal := .mk "En8" none (some (fun _ => Except.ok cV8w)) none none none

def cV8n : ExtVal := .mk "Rad8" none none none none none

def cP8 : Props :=
  { variant := .shade, hostId := 1,
    exts := [{ name := "energy", slot := .accessor, value := cV8, shadow := none },
             { name := "radiance", slot := .accessor, value := cV8n, shadow := none }],
    hidden := [] }

def cV9new : ExtVal := .mk "New9" none none none none none

def cV9orig : ExtVal := .mk "Orig9" (some (fun _ => Except.ok cV9new)) none none none none

def cV9plain : ExtVal := .mk "Plain9" none none none none none

def cSelf9 : Props :=
  { variant := .door, hostId := 4,
    exts := [{ name := "energy", slot := .plain, value := cV9plain, shadow := none }],
    hidden := [] }

def cOrig9 : Props :=
  { variant := .door, hostId := 1,
    exts := [{ name := "energy", slot := .plain, value := cV9orig, shadow := none }],
    hidden := [] }

def cV9load : ExtVal := .mk "Load9" none none none none (some (fun _ _ => Except.ok cV9new))

def cSelf9b : Props :=
  { variant := .door, hostId := 4,
    exts := [{ name := "energy", slot := .plain, value := cV9load, shadow := none }],
    hidden := [] }

def cD9 : Dict := [("energy", cPayload)]

def cV10a : ExtVal :=
  .mk "Aaa10" none none none
    (some (fun _ => Except.ok [("shared_key", JVal.str "from_aaa")])) none

def cV10e : ExtVal :=
  .mk "En10" none none none
    (some (fun _ => Except.ok [("shared_key", JVal.str "from_energy"), ("type", JVal.str "E2")]))
    none

def cP10 : Props :=
  { variant := .room, hostId := 1,
    exts := [{ name := "aaa", slot := .accessor, value := cV10a, shadow := none },
             { name := "energy", slot := .accessor, value := cV10e, shadow := none }],
    hidden := [] }

/-- Whether the serialization decision at name `a` merges a dictionary that
contains key `k` (a decidable check used by concrete witnesses). -/
def emitsKey (p : Props) (ab : Option Bool) (a : String) (k : String) : Bool :=
  match serDec p ab a with
  | .store d => (dictKeys d).contains k
  | _ => false

/-! ### Basic facts about the enumeration -/

theorem insertSorted_perm (a : String) (l : List String) :
    List.Perm (insertSorted a l) (a :: l) := by
  induction l with
  | nil => exact List.Perm.refl _
  | cons b l ih =>
    show List.Perm (if strLe a b then a :: b :: l else b :: insertSorted a l) (a :: b :: l)
    split
    · exact List.Perm.refl _
    · exact (ih.cons b).trans (List.Perm.swap a b l)

theorem sortNames_perm (l : List String) : List.Perm (sortNames l) l := by
  induction l with
  | nil => exact List.Perm.refl _
  | cons a l ih => exact (insertSorted_perm a (sortNames l)).trans (ih.cons a)

theorem dirNames_nodup (p : Props) : (dirNames p).Nodup :=
  ((sortNames_perm _).nodup_iff).mpr (List.nodup_dedup _)

theorem mem_dirNames {p : Props} {n : String} : n ∈ dirNames p ↔ n ∈ memberNames p :=
  ((sortNames_perm _).mem_iff).trans List.mem_dedup

theorem extensionAttrNames_nodup (p : Props) : (extensionAttrNames p).Nodup :=
  (dirNames_nodup p).filter _

theorem modelAttrNames_nodup (p : Props) : (modelAttrNames p).Nodup :=
  (dirNames_nodup p).filter _

theorem mem_extensionAttrNames {p : Props} {n : String} :
    n ∈ extensionAttrNames p ↔
      n ∈ memberNames p ∧ underscored n = false ∧ ¬ n ∈ doNotDuplicate := by
  unfold extensionAttrNames
  rw [List.mem_filter, mem_dirNames]
  simp [List.elem_iff]

theorem mem_modelAttrNames {p : Props} {n : String} :
    n ∈ modelAttrNames p ↔
      n ∈ memberNames p ∧ underscored n = false ∧ n ≠ "host" := by
  unfold modelAttrNames
  rw [List.mem_filter, mem_dirNames]
  simp

/-! ### Facts about entries, `getattr` and the two `setattr` forms -/

theorem entryAt_name {p : Props} {n : String} {e : ExtEntry} (h : entryAt p n = some e) :
    e ∈ p.exts ∧ e.name = n := by
  refine ⟨List.mem_of_find?_eq_some h, ?_⟩
  have := List.find?_some h
  simpa using this

theorem find?_name_of_mem {l : List ExtEntry} (hnd : (l.map ExtEntry.name).Nodup)
    {e : ExtEntry} (he : e ∈ l) : l.find? (fun x => x.name == e.name) = some e := by
  induction l with
  | nil => cases he
  | cons a l ih =>
    simp only [List.find?_cons]
    rcases List.mem_cons.mp he with rfl | he'
    · rw [show (e.name == e.name) = true from beq_iff_eq.mpr rfl]
    · have hna : a.name ≠ e.name := by
        intro h
        exact (List.nodup_cons.mp (by simpa using hnd)).1
          (h ▸ List.mem_map_of_mem ExtEntry.name he')
      rw [show (a.name == e.name) = false from beq_eq_false_iff_ne.mpr hna]
      exact ih (List.nodup_cons.mp (by simpa using hnd)).2 he'

theorem entryAt_of_mem {p : Props} (hnd : (p.exts.map ExtEntry.name).Nodup)
    {e : ExtEntry} (he : e ∈ p.exts) : entryAt p e.name = some e :=
  find?_name_of_mem hnd he

theorem exists_find?_of_mem_names {l : List ExtEntry} {n : String}
    (h : n ∈ l.map ExtEntry.name) : ∃ e, l.find? (fun x => x.name == n) = some e := by
  induction l with
  | nil => simp at h
  | cons a l ih =>
    simp only [List.find?_cons]
    by_cases ha : a.name = n
    · exact ⟨a, by rw [show (a.name == n) = true from beq_iff_eq.mpr ha]⟩
    · have h' : n ∈ l.map ExtEntry.name := by
        rcases List.mem_map.mp h with ⟨e, he, hn⟩
        rcases List.mem_cons.mp he with rfl | he'
        · exact absurd hn ha
        · exact hn ▸ List.mem_map_of_mem ExtEntry.name he'
      rcases ih h' with ⟨x, hx⟩
      refine ⟨x, ?_⟩
      rw [show (a.name == n) = false from beq_eq_false_iff_ne.mpr ha]
      exact hx

theorem exists_entryAt_of_mem_names {p : Props} {n : String}
    (h : n ∈ p.exts.map ExtEntry.name) : ∃ e, entryAt p n = some e :=
  exists_find?_of_mem_names h

theorem updUnder_name (w : ExtVal) (e : ExtEntry) : (updUnder w e).name = e.name := by
  unfold updUnder; split <;> rfl

theorem updUnder_slot (w : ExtVal) (e : ExtEntry) : (updUnder w e).slot = e.slot := by
  unfold updUnder
  split <;> (rename_i h; rw [h])

theorem updPublic_name (w : ExtVal) (e : ExtEntry) : (updPublic w e).name = e.name := rfl

theorem find?_map_upd_other (f : ExtEntry → ExtEntry) (hf : ∀ e, (f e).name = e.name)
    {n b : String} (hne : b ≠ n) (l : List ExtEntry) :
    (l.map (fun e => if e.name = n then f e else e)).find? (fun e => e.name == b) =
      l.find? (fun e => e.name == b) := by
  induction l with
  | nil => rfl
  | cons a l ih =>
    simp only [List.map_cons, List.find?_cons]
    by_cases han : a.name = n
    · rw [if_pos han,
        show ((f a).name == b) = false from
          beq_eq_false_iff_ne.mpr (by rw [hf a, han]; exact fun h => hne h.symm),
        show (a.name == b) = false from
          beq_eq_false_iff_ne.mpr (by rw [han]; exact fun h => hne h.symm)]
      exact ih
    · rw [if_neg han]
      by_cases hab : a.name = b
      · rw [show (a.name == b) = true from beq_iff_eq.mpr hab]
      · rw [show (a.name == b) = false from beq_eq_false_iff_ne.mpr hab]
        exact ih

theorem find?_map_upd_self (f : ExtEntry → ExtEntry) (hf : ∀ e, (f e).name = e.name)
    {n : String} (l : List ExtEntry) :
    (l.map (fun e => if e.name = n then f e else e)).find? (fun e => e.name == n) =
      (l.find? (fun e => e.name == n)).map f := by
  induction l with
  | nil => rfl
  | cons a l ih =>
    simp only [List.map_cons, List.find?_cons]
    by_cases han : a.name = n
    · rw [if_pos han,
        show ((f a).name == n) = true from beq_iff_eq.mpr (by rw [hf a, han]),
        show (a.name == n) = true from beq_iff_eq.mpr han]
      rfl
    · rw [if_neg han, show (a.name == n) = false from beq_eq_false_iff_ne.mpr han]
      exact ih

theorem any_eq_false_find? {l : List ExtEntry} {n : String}
    (h : l.any (fun e => e.name == n) = false) : l.find? (fun e => e.name == n) = none := by
  rw [List.find?_eq_none]
  intro e he
  simpa using List.any_eq_false.mp h e he

theorem entryAt_setUnder_self (p : Props) (n : String) (w : ExtVal) :
    entryAt (setUnder p n w) n = (entryAt p n).map (updUnder w) := by
  unfold setUnder entryAt
  split
  · exact find?_map_upd_self (updUnder w) (updUnder_name w) _
  · rename_i h
    rw [any_eq_false_find? (Bool.of_not_eq_true h)]
    rfl

theorem entryAt_setUnder_other (p : Props) {n b : String} (hne : b ≠ n) (w : ExtVal) :
    entryAt (setUnder p n w) b = entryAt p b := by
  unfold setUnder entryAt
  split
  · exact find?_map_upd_other (updUnder w) (updUnder_name w) hne _
  · rfl

theorem setUnder_hostId (p : Props) (n : String) (w : ExtVal) :
    (setUnder p n w).hostId = p.hostId := by
  unfold setUnder; split <;> rfl

theorem setUnder_variant (p : Props) (n : String) (w : ExtVal) :
    (setUnder p n w).variant = p.variant := by
  unfold setUnder; split <;> rfl

theorem map_name_upd (f : ExtEntry → ExtEntry) (hf : ∀ e, (f e).name = e.name)
    (n : String) (l : List ExtEntry) :
    (l.map (fun e => if e.name = n then f e else e)).map ExtEntry.name = l.map ExtEntry.name := by
  induction l with
  | nil => rfl
  | cons a l ih =>
    simp only [List.map_cons]
    by_cases han : a.name = n
    · rw [if_pos han, hf a, ih]
    · rw [if_neg han, ih]

theorem setUnder_names (p : Props) (n : String) (w : ExtVal) :
    (setUnder p n w).exts.map ExtEntry.name = p.exts.map ExtEntry.name := by
  unfold setUnder
  split
  · exact map_name_upd (updUnder w) (updUnder_name w) n _
  · rfl

theorem entryAt_setPublic_self (p : Props) (n : String) (w : ExtVal) :
    entryAt (setPublic p n w) n = (entryAt p n).map (updPublic w) :=
  find?_map_upd_self (updPublic w) (updPublic_name w) _

theorem entryAt_setPublic_other (p : Props) {n b : String} (hne : b ≠ n) (w : ExtVal) :
    entryAt (setPublic p n w) b = entryAt p b :=
  find?_map_upd_other (updPublic w) (updPublic_name w) hne _

theorem setPublic_hostId (p : Props) (n : String) (w : ExtVal) :
    (setPublic p n w).hostId = p.hostId := rfl

theorem setPublic_variant (p : Props) (n : String) (w : ExtVal) :
    (setPublic p n w).variant = p.variant := rfl

theorem setPublic_names (p : Props) (n : String) (w : ExtVal) :
    (setPublic p n w).exts.map ExtEntry.name = p.exts.map ExtEntry.name :=
  map_name_upd (updPublic w) (updPublic_name w) n _

/-! ### Generic facts about the aggregation fold -/

theorem foldE_cons {σ : Type} (step : σ → String → Except PyErr σ) (s : σ)
    (a : String) (l : List String) :
    foldE step s (a :: l) =
      match step s a with
      | .ok t => foldE step t l
      | .error e => Except.error e := rfl

theorem foldE_append {σ : Type} (step : σ → String → Except PyErr σ) (s : σ)
    (l₁ l₂ : List String) :
    foldE step s (l₁ ++ l₂) =
      match foldE step s l₁ with
      | .ok t => foldE step t l₂
      | .error e => Except.error e := by
  induction l₁ generalizing s with
  | nil => rfl
  | cons a l ih =>
    rw [List.cons_append, foldE_cons, foldE_cons]
    cases step s a with
    | ok t => exact ih t
    | error e => rfl

/-- Master lemma for the three state-mutating aggregator loops
(duplicate-all, prefix-all, deserialize-all): when no iteration decides to
raise (with decisions judged against the initial state, which is sound
because an iteration only ever touches the entry of its own name), the fold
succeeds, preserves host, class and the name list, leaves entries of names
outside the loop untouched, and maps each processed name's entry according
to its decision. -/
theorem foldE_master (dec : Props → String → SDec ExtVal) (upd : Props → String → ExtVal → Props)
    (updE : ExtVal → ExtEntry → ExtEntry)
    (hdec : ∀ s t a, entryAt s a = entryAt t a → s.hostId = t.hostId → s.variant = t.variant →
      dec s a = dec t a)
    (hfr : ∀ s a w b, b ≠ a → entryAt (upd s a w) b = entryAt s b)
    (hloc : ∀ s a w, entryAt (upd s a w) a = (entryAt s a).map (updE w))
    (hhost : ∀ s a w, (upd s a w).hostId = s.hostId)
    (hvar : ∀ s a w, (upd s a w).variant = s.variant)
    (hnm : ∀ s a w, (upd s a w).exts.map ExtEntry.name = s.exts.map ExtEntry.name) :
    ∀ (l : List String), l.Nodup → ∀ (s : Props),
      (∀ a ∈ l, (dec s a).isFail = false) →
      ∃ t, foldE (stepOf dec upd) s l = .ok t ∧ t.hostId = s.hostId ∧ t.variant = s.variant ∧
        t.exts.map ExtEntry.name = s.exts.map ExtEntry.name ∧
        (∀ b, b ∉ l → entryAt t b = entryAt s b) ∧
        (∀ a ∈ l, entryAt t a =
          match dec s a with
          | .skip => entryAt s a
          | .store w => (entryAt s a).map (updE w)
          | .fail _ => entryAt s a) := by
  intro l
  induction l with
  | nil =>
    intro _ s _
    exact ⟨s, rfl, rfl, rfl, rfl, fun b _ => rfl, fun a ha => absurd ha (List.not_mem_nil a)⟩
  | cons a l ih =>
    intro hnd s hok
    have hnd' : l.Nodup := (List.nodup_cons.mp hnd).2
    have hal : a ∉ l := (List.nodup_cons.mp hnd).1
    have ha := hok a (List.mem_cons_self a l)
    cases hda : dec s a with
    | fail e => rw [hda] at ha; simp [SDec.isFail] at ha
    | skip =>
      have hfold : foldE (stepOf dec upd) s (a :: l) = foldE (stepOf dec upd) s l := by
        rw [foldE_cons]
        have : stepOf dec upd s a = .ok s := by unfold stepOf; rw [hda]
        rw [this]
      obtain ⟨t, h1, h2, h3, h4, h5, h6⟩ :=
        ih hnd' s (fun b hb => hok b (List.mem_cons_of_mem a hb))
      refine ⟨t, by rw [hfold]; exact h1, h2, h3, h4, ?_, ?_⟩
      · intro b hb
        exact h5 b (fun hbl => hb (List.mem_cons_of_mem a hbl))
      · intro c hc
        rcases List.mem_cons.mp hc with rfl | hcl
        · rw [hda]
          exact h5 c hal
        · exact h6 c hcl
    | store w =>
      have hfold : foldE (stepOf dec upd) s (a :: l) = foldE (stepOf dec upd) (upd s a w) l := by
        rw [foldE_cons]
        have : stepOf dec upd s a = .ok (upd s a w) := by unfold stepOf; rw [hda]
        rw [this]
      have hent : ∀ b ∈ l, entryAt (upd s a w) b = entryAt s b := fun b hb =>
        hfr s a w b (fun hba => hal (hba ▸ hb))
      have hdec' : ∀ b ∈ l, dec (upd s a w) b = dec s b := fun b hb =>
        hdec (upd s a w) s b (hent b hb) (hhost s a w) (hvar s a w)
      obtain ⟨t, h1, h2, h3, h4, h5, h6⟩ :=
        ih hnd' (upd s a w)
          (fun b hb => by rw [hdec' b hb]; exact hok b (List.mem_cons_of_mem a hb))
      refine ⟨t, by rw [hfold]; exact h1, by rw [h2]; exact hhost s a w,
        by rw [h3]; exact hvar s a w, by rw [h4]; exact hnm s a w, ?_, ?_⟩
      · intro b hb
        have hba : b ≠ a := fun h => hb (h ▸ List.mem_cons_self a l)
        rw [h5 b (fun hbl => hb (List.mem_cons_of_mem a hbl)), hfr s a w b hba]
      · intro c hc
        rcases List.mem_cons.mp hc with rfl | hcl
        · rw [hda, h5 c hal, hloc s c w]
        · rw [h6 c hcl, hdec' c hcl, hent c hcl]

/-- Error-propagation shape of the master lemma: when every iteration before
`n` succeeds and the iteration at `n` decides to raise, the whole loop
raises that error. -/
theorem foldE_master_error (dec : Props → String → SDec ExtVal)
    (upd : Props → String → ExtVal → Props) (updE : ExtVal → ExtEntry → ExtEntry)
    (hdec : ∀ s t a, entryAt s a = entryAt t a → s.hostId = t.hostId → s.variant = t.variant →
      dec s a = dec t a)
    (hfr : ∀ s a w b, b ≠ a → entryAt (upd s a w) b = entryAt s b)
    (hloc : ∀ s a w, entryAt (upd s a w) a = (entryAt s a).map (updE w))
    (hhost : ∀ s a w, (upd s a w).hostId = s.hostId)
    (hvar : ∀ s a w, (upd s a w).variant = s.variant)
    (hnm : ∀ s a w, (upd s a w).exts.map ExtEntry.name = s.exts.map ExtEntry.name)
    (l₁ : List String) (n : String) (l₂ : List String) (s : Props) (e : PyErr)
    (hnd : (l₁ ++ n :: l₂).Nodup)
    (hok : ∀ a ∈ l₁, (dec s a).isFail = false)
    (hfail : dec s n = .fail e) :
    foldE (stepOf dec upd) s (l₁ ++ n :: l₂) = .error e := by
  have hnd₁ : l₁.Nodup := (List.nodup_append.mp hnd).1
  have hnotin : n ∉ l₁ := fun hn =>
    List.disjoint_of_nodup_append hnd hn (List.mem_cons_self n l₂)
  obtain ⟨t, h1, h2, h3, _, h5, _⟩ :=
    foldE_master dec upd updE hdec hfr hloc hhost hvar hnm l₁ hnd₁ s hok
  rw [foldE_append, h1]
  show foldE (stepOf dec upd) t (n :: l₂) = .error e
  have hdn : dec t n = dec s n := hdec t s n (h5 n hnotin) h2 h3
  rw [foldE_cons]
  have : stepOf dec upd t n = .error e := by unfold stepOf; rw [hdn, hfail]
  rw [this]

/-! ### Facts about dictionary merging -/

theorem find?_append_none {α : Type} (p : α → Bool) {l₁ : List α} (l₂ : List α)
    (h : l₁.find? p = none) : (l₁ ++ l₂).find? p = l₂.find? p := by
  induction l₁ with
  | nil => rfl
  | cons a l ih =>
    rw [List.cons_append, List.find?_cons]
    cases ha : p a with
    | true =>
      rw [List.find?_cons, ha] at h
      cases h
    | false =>
      rw [List.find?_cons, ha] at h
      exact ih h

theorem find?_append_some {α : Type} (p : α → Bool) {l₁ : List α} {x : α} (l₂ : List α)
    (h : l₁.find? p = some x) : (l₁ ++ l₂).find? p = some x := by
  induction l₁ with
  | nil => cases h
  | cons a l ih =>
    rw [List.cons_append, List.find?_cons]
    rw [List.find?_cons] at h
    cases ha : p a with
    | true => rw [ha] at h; exact h
    | false => rw [ha] at h; exact ih h

theorem find?_keyupd_self {k : String} (v : JVal) :
    ∀ d : Dict, d.any (fun p => p.1 == k) = true →
      (d.map (fun p => if p.1 = k then (k, v) else p)).find? (fun p => p.1 == k) =
        some (k, v) := by
  intro d
  induction d with
  | nil => intro h; cases h
  | cons kv d ih =>
    intro h
    simp only [List.map_cons]
    by_cases hk : kv.1 = k
    · rw [if_pos hk, List.find?_cons, show ((k, v).1 == k) = true from beq_iff_eq.mpr rfl]
    · have h' : d.any (fun p => p.1 == k) = true := by
        rw [List.any_cons] at h
        rcases Bool.or_eq_true_iff.mp h with h1 | h2
        · exact absurd (eq_of_beq h1) hk
        · exact h2
      rw [if_neg hk, List.find?_cons,
        show (kv.1 == k) = false from beq_eq_false_iff_ne.mpr hk]
      exact ih h'

theorem find?_keyupd_other {k b : String} (hne : b ≠ k) (v : JVal) :
    ∀ d : Dict,
      (d.map (fun p => if p.1 = k then (k, v) else p)).find? (fun p => p.1 == b) =
        d.find? (fun p => p.1 == b) := by
  intro d
  induction d with
  | nil => rfl
  | cons kv d ih =>
    simp only [List.map_cons]
    by_cases hk : kv.1 = k
    · rw [if_pos hk, List.find?_cons, List.find?_cons,
        show ((k, v).1 == b) = false from beq_eq_false_iff_ne.mpr (fun h => hne h.symm),
        show (kv.1 == b) = false from
          beq_eq_false_iff_ne.mpr (fun h => hne (by rw [← h, hk]))]
      exact ih
    · rw [if_neg hk, List.find?_cons, List.find?_cons]
      cases hb : (kv.1 == b) with
      | true => rfl
      | false => exact ih

theorem dictGet_insert_self (d : Dict) (k : String) (v : JVal) :
    dictGet (dictInsert d k v) k = some v := by
  unfold dictInsert
  split
  · rename_i h
    unfold dictGet
    rw [find?_keyupd_self v d h]
    rfl
  · rename_i h
    have hnone : d.find? (fun p => p.1 == k) = none := by
      rw [List.find?_eq_none]
      intro x hx
      simpa using List.any_eq_false.mp (Bool.of_not_eq_true h) x hx
    unfold dictGet
    rw [find?_append_none _ _ hnone, List.find?_cons,
      show ((k, v).1 == k) = true from beq_iff_eq.mpr rfl]
    rfl

theorem dictGet_insert_other (d : Dict) {k b : String} (hne : b ≠ k) (v : JVal) :
    dictGet (dictInsert d k v) b = dictGet d b := by
  unfold dictInsert
  split
  · unfold dictGet
    rw [find?_keyupd_other hne v d]
  · unfold dictGet
    cases hfd : d.find? (fun p => p.1 == b) with
    | some x => rw [find?_append_some _ _ hfd]
    | none =>
      rw [find?_append_none _ _ hfd, List.find?_cons,
        show ((k, v).1 == b) = false from beq_eq_false_iff_ne.mpr (fun h => hne h.symm)]
      rfl

theorem dictUpdate_nil (d : Dict) : dictUpdate d [] = d := rfl

theorem dictUpdate_cons (d : Dict) (kv : String × JVal) (e : Dict) :
    dictUpdate d (kv :: e) = dictUpdate (dictInsert d kv.1 kv.2) e := rfl

theorem dictGet_update_of_not_mem {k : String} :
    ∀ (e d : Dict), ¬ k ∈ dictKeys e → dictGet (dictUpdate d e) k = dictGet d k := by
  intro e
  induction e with
  | nil => intro d _; rfl
  | cons kv e ih =>
    intro d hk
    rw [dictUpdate_cons]
    have hk1 : k ≠ kv.1 := fun h => hk (by simp [dictKeys, h])
    have hke : ¬ k ∈ dictKeys e := fun h => hk (by simp [dictKeys] at h ⊢; exact Or.inr h)
    rw [ih (dictInsert d kv.1 kv.2) hke, dictGet_insert_other d hk1 kv.2]

theorem dictGet_update_of_mem {k : String} :
    ∀ (e d : Dict), (dictKeys e).Nodup → k ∈ dictKeys e →
      dictGet (dictUpdate d e) k = dictGet e k := by
  intro e
  induction e with
  | nil => intro d _ hk; cases hk
  | cons kv e ih =>
    intro d hnd hk
    rw [dictUpdate_cons]
    by_cases hk1 : k = kv.1
    · have hke : ¬ k ∈ dictKeys e := fun h =>
        (List.nodup_cons.mp (by simpa [dictKeys] using hnd)).1 (hk1 ▸ h)
      rw [dictGet_update_of_not_mem e (dictInsert d kv.1 kv.2) hke, hk1,
        dictGet_insert_self]
      unfold dictGet
      rw [List.find?_cons, show (kv.1 == kv.1) = true from beq_iff_eq.mpr rfl]
      rfl
    · have hke : k ∈ dictKeys e := by
        rcases (by simpa [dictKeys] using hk : k = kv.1 ∨ k ∈ dictKeys e) with h | h
        · exact absurd h hk1
        · exact h
      rw [ih (dictInsert d kv.1 kv.2) (List.nodup_cons.mp (by simpa [dictKeys] using hnd)).2 hke]
      unfold dictGet
      rw [List.find?_cons, show (kv.1 == k) = false from
        beq_eq_false_iff_ne.mpr (fun h => hk1 h.symm)]

theorem dictGet_update_isSome_left {k : String} :
    ∀ (e d : Dict), (dictGet d k).isSome = true →
      (dictGet (dictUpdate d e) k).isSome = true := by
  intro e
  induction e with
  | nil => intro d h; exact h
  | cons kv e ih =>
    intro d h
    rw [dictUpdate_cons]
    refine ih (dictInsert d kv.1 kv.2) ?_
    by_cases hk1 : k = kv.1
    · rw [hk1, dictGet_insert_self]; rfl
    · rw [dictGet_insert_other d hk1 kv.2]; exact h

theorem dictGet_update_isSome_mem {k : String} :
    ∀ (e d : Dict), k ∈ dictKeys e → (dictGet (dictUpdate d e) k).isSome = true := by
  intro e
  induction e with
  | nil => intro d hk; cases hk
  | cons kv e ih =>
    intro d hk
    rw [dictUpdate_cons]
    by_cases hke : k ∈ dictKeys e
    · exact ih (dictInsert d kv.1 kv.2) hke
    · have hk1 : k = kv.1 := by
        rcases (by simpa [dictKeys] using hk : k = kv.1 ∨ k ∈ dictKeys e) with h | h
        · exact h
        · exact absurd h hke
      refine dictGet_update_isSome_left e (dictInsert d kv.1 kv.2) ?_
      rw [hk1, dictGet_insert_self]
      rfl

/-! ### Facts about the serialization fold -/

theorem serFold_nil (p : Props) (ab : Option Bool) (base : Dict) :
    serFold p ab base [] = .ok base := rfl

theorem serFold_cons (p : Props) (ab : Option Bool) (base : Dict) (a : String)
    (l : List String) :
    serFold p ab base (a :: l) =
      match serDec p ab a with
      | .skip => serFold p ab base l
      | .store d => serFold p ab (dictUpdate base d) l
      | .fail e => Except.error e := by
  unfold serFold
  rw [foldE_cons]
  unfold serStep
  cases serDec p ab a <;> rfl

theorem serFold_ok (p : Props) (ab : Option Bool) :
    ∀ (l : List String) (base : Dict), (∀ a ∈ l, (serDec p ab a).isFail = false) →
      ∃ r, serFold p ab base l = .ok r := by
  intro l
  induction l with
  | nil => exact fun base _ => ⟨base, rfl⟩
  | cons a l ih =>
    intro base hok
    have ha := hok a (List.mem_cons_self a l)
    rw [serFold_cons]
    cases hda : serDec p ab a with
    | fail e => rw [hda] at ha; simp [SDec.isFail] at ha
    | skip => exact ih base (fun b hb => hok b (List.mem_cons_of_mem a hb))
    | store d => exact ih (dictUpdate base d) (fun b hb => hok b (List.mem_cons_of_mem a hb))

theorem serFold_split {p : Props} {ab : Option Bool} {base r : Dict}
    {l₁ l₂ : List String} (h : serFold p ab base (l₁ ++ l₂) = .ok r) :
    ∃ m, serFold p ab base l₁ = .ok m ∧ serFold p ab m l₂ = .ok r := by
  have := foldE_append (serStep p ab) base l₁ l₂
  unfold serFold at h ⊢
  rw [this] at h
  cases hm : foldE (serStep p ab) base l₁ with
  | ok m => rw [hm] at h; exact ⟨m, rfl, h⟩
  | error e => rw [hm] at h; cases h

theorem serFold_get_frame {p : Props} {ab : Option Bool} {k : String} :
    ∀ (l : List String) (base r : Dict), serFold p ab base l = .ok r →
      (∀ a ∈ l, ∀ d, serDec p ab a = .store d → ¬ k ∈ dictKeys d) →
      dictGet r k = dictGet base k := by
  intro l
  induction l with
  | nil => intro base r h _; cases h; rfl
  | cons a l ih =>
    intro base r h hno
    rw [serFold_cons] at h
    cases hda : serDec p ab a with
    | fail e => rw [hda] at h; cases h
    | skip =>
      rw [hda] at h
      exact ih base r h (fun b hb => hno b (List.mem_cons_of_mem a hb))
    | store d =>
      rw [hda] at h
      rw [ih (dictUpdate base d) r h (fun b hb => hno b (List.mem_cons_of_mem a hb)),
        dictGet_update_of_not_mem d base (hno a (List.mem_cons_self a l) d hda)]

theorem serFold_get_isSome {p : Props} {ab : Option Bool} {k : String} :
    ∀ (l : List String) (base r : Dict), serFold p ab base l = .ok r →
      (dictGet base k).isSome = true → (dictGet r k).isSome = true := by
  intro l
  induction l with
  | nil => intro base r h hk; cases h; exact hk
  | cons a l ih =>
    intro base r h hk
    rw [serFold_cons] at h
    cases hda : serDec p ab a with
    | fail e => rw [hda] at h; cases h
    | skip => rw [hda] at h; exact ih base r h hk
    | store d =>
      rw [hda] at h
      exact ih (dictUpdate base d) r h (dictGet_update_isSome_left d base hk)

/-- The value finally stored under key `k` when the extension processed at
position `n` emits `k` and no later iteration emits `k` again: the final
lookup agrees with that extension's own output. -/
theorem serFold_get_last {p : Props} {ab : Option Bool} {k n : String}
    {l₁ l₂ : List String} {base r d : Dict}
    (h : serFold p ab base (l₁ ++ n :: l₂) = .ok r)
    (hdn : serDec p ab n = .store d)
    (hnd : (dictKeys d).Nodup) (hk : k ∈ dictKeys d)
    (hlater : ∀ b ∈ l₂, ∀ d', serDec p ab b = .store d' → ¬ k ∈ dictKeys d') :
    dictGet r k = dictGet d k := by
  obtain ⟨m, hm1, hm2⟩ := serFold_split h
  rw [serFold_cons, hdn] at hm2
  rw [serFold_get_frame l₂ (dictUpdate m d) r hm2 hlater,
    dictGet_update_of_mem d m hnd hk]

/-! ### Decision congruence and per-operation master lemmas -/

theorem of_all_not_isFail {α : Type} (dec : String → SDec α) (l : List String)
    (h : l.all (fun a => !(dec a).isFail) = true) : ∀ a ∈ l, (dec a).isFail = false := by
  intro a ha
  have := List.all_eq_true.mp h a ha
  simpa using this

theorem dupDec_congr (orig : Props) : ∀ s t a, entryAt s a = entryAt t a →
    s.hostId = t.hostId → s.variant = t.variant → dupDec orig s a = dupDec orig t a := by
  intro s t a _ hh _
  unfold dupDec
  rw [hh]

theorem pfxDec_congr (pre : String) : ∀ s t a, entryAt s a = entryAt t a →
    s.hostId = t.hostId → s.variant = t.variant → pfxDec pre s a = pfxDec pre t a := by
  intro s t a he _ hv
  unfold pfxDec getattrMem
  rw [he, hv]

theorem loadDec_congr (d : Dict) : ∀ s t a, entryAt s a = entryAt t a →
    s.hostId = t.hostId → s.variant = t.variant → loadDec d s a = loadDec d t a := by
  intro s t a he hh hv
  unfold loadDec getattrMem
  rw [he, hh, hv]

theorem dupAll_master (orig s : Props)
    (hok : ∀ a ∈ extensionAttrNames s, (dupDec orig s a).isFail = false) :
    ∃ t, duplicateExtensionAttr s orig = .ok t ∧ t.hostId = s.hostId ∧ t.variant = s.variant ∧
      t.exts.map ExtEntry.name = s.exts.map ExtEntry.name ∧
      (∀ b, b ∉ extensionAttrNames s → entryAt t b = entryAt s b) ∧
      (∀ a ∈ extensionAttrNames s, entryAt t a =
        match dupDec orig s a with
        | .skip => entryAt s a
        | .store w => (entryAt s a).map (updUnder w)
        | .fail _ => entryAt s a) :=
  foldE_master (dupDec orig) setUnder updUnder (dupDec_congr orig)
    (fun s a w b h => entryAt_setUnder_other s h w)
    (fun s a w => entryAt_setUnder_self s a w)
    setUnder_hostId setUnder_variant setUnder_names
    (extensionAttrNames s) (extensionAttrNames_nodup s) s hok

theorem loadAll_master (d : Dict) (s : Props)
    (hok : ∀ a ∈ extensionAttrNames s, (loadDec d s a).isFail = false) :
    ∃ t, loadExtensionAttrFromDict s d = .ok t ∧ t.hostId = s.hostId ∧ t.variant = s.variant ∧
      t.exts.map ExtEntry.name = s.exts.map ExtEntry.name ∧
      (∀ b, b ∉ extensionAttrNames s → entryAt t b = entryAt s b) ∧
      (∀ a ∈ extensionAttrNames s, entryAt t a =
        match loadDec d s a with
        | .skip => entryAt s a
        | .store w => (entryAt s a).map (updUnder w)
        | .fail _ => entryAt s a) :=
  foldE_master (loadDec d) setUnder updUnder (loadDec_congr d)
    (fun s a w b h => entryAt_setUnder_other s h w)
    (fun s a w => entryAt_setUnder_self s a w)
    setUnder_hostId setUnder_variant setUnder_names
    (extensionAttrNames s) (extensionAttrNames_nodup s) s hok

theorem pfxAll_master (pre : String) (s : Props)
    (hok : ∀ a ∈ extensionAttrNames s, (pfxDec pre s a).isFail = false) :
    ∃ t, addPfxExtensionAttr s pre = .ok t ∧ t.hostId = s.hostId ∧ t.variant = s.variant ∧
      t.exts.map ExtEntry.name = s.exts.map ExtEntry.name ∧
      (∀ b, b ∉ extensionAttrNames s → entryAt t b = entryAt s b) ∧
      (∀ a ∈ extensionAttrNames s, entryAt t a =
        match pfxDec pre s a with
        | .skip => entryAt s a
        | .store w => (entryAt s a).map (updPublic w)
        | .fail _ => entryAt s a) :=
  foldE_master (pfxDec pre) setPublic updPublic (pfxDec_congr pre)
    (fun s a w b h => entryAt_setPublic_other s h w)
    (fun s a w => entryAt_setPublic_self s a w)
    setPublic_hostId setPublic_variant setPublic_names
    (extensionAttrNames s) (extensionAttrNames_nodup s) s hok

/-! ### Membership helpers for the enumeration -/

theorem underscored_underscore (s : String) : underscored ("_" ++ s) = true := by
  have h : ("_" ++ s).toList = '_' :: s.toList := rfl
  unfold underscored
  rw [h]
  rfl

theorem extName_mem_memberNames {p : Props} {n : String}
    (h : n ∈ p.exts.map ExtEntry.name) : n ∈ memberNames p := by
  unfold memberNames
  simp only [List.mem_append]
  tauto

theorem entryAt_eq_none_of_not_mem {p : Props} {n : String}
    (h : ¬ n ∈ p.exts.map ExtEntry.name) : entryAt p n = none := by
  cases he : entryAt p n with
  | none => rfl
  | some e =>
    rcases entryAt_name he with ⟨hmem, hname⟩
    exact absurd (hname ▸ List.mem_map_of_mem ExtEntry.name hmem) h

theorem mem_memberNames_cases {p : Props} {n : String} (h : n ∈ memberNames p)
    (hund : underscored n = false) :
    n ∈ variantMethods p.variant ∨ n ∈ p.exts.map ExtEntry.name := by
  unfold memberNames at h
  simp only [List.mem_append] at h
  rcases h with (((h | h) | h) | h) | h
  · exact Or.inl h
  · exfalso
    have hd : n = "_host" ∨ n = "_do_not_duplicate" ∨ n = "__class__" ∨ n = "__init__" ∨
        n = "__repr__" := by simpa [internalMembers] using h
    have : underscored n = true := by
      rcases hd with rfl | rfl | rfl | rfl | rfl <;> rfl
    rw [this] at hund
    cases hund
  · exact Or.inr h
  · exfalso
    rcases List.mem_map.mp h with ⟨e, _, hn⟩
    rw [← hn, underscored_underscore] at hund
    cases hund
  · exfalso
    rcases List.mem_map.mp h with ⟨x, _, hn⟩
    rw [← hn, underscored_underscore] at hund
    cases hund

/-- A `getattr` on a method name of the class yields a bound method when no
extension entry shadows it. -/
theorem getattrMem_meth {p : Props} {n : String} (hnone : entryAt p n = none)
    (hm : n ∈ variantMethods p.variant) : getattrMem p n = some .meth := by
  unfold getattrMem
  rw [hnone]
  have h1 : (variantMethods p.variant).contains n = true := List.elem_eq_true_of_mem hm
  rw [h1, Bool.true_or, if_pos rfl]

theorem getattrMem_ext {p : Props} {n : String} {e : ExtEntry} (h : entryAt p n = some e) :
    getattrMem p n = some (.ext e.value) := by
  unfold getattrMem
  rw [h]

theorem dictGet_singleton_self (n : String) (x : JVal) : dictGet [(n, x)] n = some x := by
  unfold dictGet
  rw [List.find?_cons, show ((n, x).1 == n) = true from beq_iff_eq.mpr rfl]
  rfl

theorem serFold_error (p : Props) (ab : Option Bool) (base : Dict)
    (l₁ : List String) (n : String) (l₂ : List String) (e : PyErr)
    (hok : ∀ b ∈ l₁, (serDec p ab b).isFail = false)
    (hfail : serDec p ab n = .fail e) :
    serFold p ab base (l₁ ++ n :: l₂) = .error e := by
  obtain ⟨m, hm⟩ := serFold_ok p ab l₁ base hok
  unfold serFold at hm ⊢
  rw [foldE_append, hm]
  show foldE (serStep p ab) m (n :: l₂) = .error e
  rw [foldE_cons]
  have hstep : serStep p ab m n = .error e := by unfold serStep; rw [hfail]
  rw [hstep]

theorem not_emits_of_all (p : Props) (ab : Option Bool) (k : String) (l : List String)
    (h : l.all (fun a => !emitsKey p ab a k) = true) :
    ∀ a ∈ l, ∀ d, serDec p ab a = .store d → ¬ k ∈ dictKeys d := by
  intro a ha d hd hk
  have h2 : emitsKey p ab a k = false := by simpa using List.all_eq_true.mp h a ha
  unfold emitsKey at h2
  rw [hd] at h2
  have h2x : (dictKeys d).contains k = false := h2
  have h3 : (dictKeys d).contains k = true := List.elem_eq_true_of_mem hk
  rw [h3] at h2x
  exact Bool.noConfusion h2x

/-- Claim C1: duplicate-all probes for, and invokes, the `duplicate`
capability on the ORIGINAL properties object's value — never the target's —
passing the new host, and stores the result on `self` under the same
extension name (in its underscore slot, via `updUnder`); an enumerated name
whose original value lacks duplicate support (or is a plain bound method) is
skipped, leaving the target's entry untouched. -/
theorem claim1_duplicate_reads_from_original (self orig : Props)
    (hok : ∀ a ∈ extensionAttrNames self, (dupDec orig self a).isFail = false) :
    ∃ t, duplicateExtensionAttr self orig = .ok t ∧
      ∀ n ∈ extensionAttrNames self,
        (∀ v f w, getattrMem orig n = some (.ext v) → v.dup = some f →
          f self.hostId = .ok w → entryAt t n = (entryAt self n).map (updUnder w)) ∧
        (∀ v, getattrMem orig n = some (.ext v) → v.dup = none →
          entryAt t n = entryAt self n) ∧
        (getattrMem orig n = some .meth → entryAt t n = entryAt self n) := by
  obtain ⟨t, h1, _, _, _, _, h6⟩ := dupAll_master orig self hok
  refine ⟨t, h1, ?_⟩
  intro n hn
  refine ⟨?_, ?_, ?_⟩
  · intro v f w hv hf hw
    have hd : dupDec orig self n = .store w := by simp [dupDec, hv, hf, hw]
    have h := h6 n hn
    rw [hd] at h
    exact h
  · intro v hv hf
    have hd : dupDec orig self n = .skip := by simp [dupDec, hv, hf]
    have h := h6 n hn
    rw [hd] at h
    exact h
  · intro hv
    have hd : dupDec orig self n = .skip := by simp [dupDec, hv]
    have h := h6 n hn
    rw [hd] at h
    exact h

/-- Witness for C1: concrete room properties where the original's `energy`
value supports `duplicate` while the target's current value does not; the
stored result is the duplicate taken from the original. -/
theorem claim1_witness :
    ∃ t, duplicateExtensionAttr cSelf1 cOrig1 = .ok t ∧
      entryAt t "energy" = (entryAt cSelf1 "energy").map (updUnder cNewEnergy) := by
  obtain ⟨t, h1, h2⟩ := claim1_duplicate_reads_from_original cSelf1 cOrig1
    (of_all_not_isFail (fun a => dupDec cOrig1 cSelf1 a) (extensionAttrNames cSelf1) (by decide))
  exact ⟨t, h1,
    (h2 "energy" (by decide)).1 cOrigEnergyVal (fun _ => Except.ok cNewEnergy) cNewEnergy
      rfl rfl rfl⟩

/-- Claim C8: prefix-all invokes `add_prefix(prefix)` only on attached
extension values exposing that capability; every enumerated name whose value
lacks it (and every name outside the enumeration) is observably unchanged
after the call. -/
theorem claim8_prefix_isolation (p : Props) (pre : String)
    (hok : ∀ a ∈ extensionAttrNames p, (pfxDec pre p a).isFail = false) :
    ∃ t, addPfxExtensionAttr p pre = .ok t ∧
      (∀ b, b ∉ extensionAttrNames p → entryAt t b = entryAt p b) ∧
      ∀ n ∈ extensionAttrNames p,
        (∀ v, getattrMem p n = some (.ext v) → v.addPfx = none →
          entryAt t n = entryAt p n) ∧
        (getattrMem p n = some .meth → entryAt t n = entryAt p n) ∧
        (∀ v f w, getattrMem p n = some (.ext v) → v.addPfx = some f →
          f pre = .ok w → entryAt t n = (entryAt p n).map (updPublic w)) := by
  obtain ⟨t, h1, _, _, _, h5, h6⟩ := pfxAll_master pre p hok
  refine ⟨t, h1, h5, ?_⟩
  intro n hn
  refine ⟨?_, ?_, ?_⟩
  · intro v hv hf
    have hd : pfxDec pre p n = .skip := by simp [pfxDec, hv, hf]
    have h := h6 n hn
    rw [hd] at h
    exact h
  · intro hv
    have hd : pfxDec pre p n = .skip := by simp [pfxDec, hv]
    have h := h6 n hn
    rw [hd] at h
    exact h
  · intro v f w hv hf hw
    have hd : pfxDec pre p n = .store w := by simp [pfxDec, hv, hf, hw]
    have h := h6 n hn
    rw [hd] at h
    exact h

/-- Witness for C8: concrete shade properties where `energy` declares rename
support and `radiance` does not; only `energy` changes. -/
theorem claim8_witness :
    ∃ t, addPfxExtensionAttr cP8 "Apt1_" = .ok t ∧
      entryAt t "radiance" = entryAt cP8 "radiance" ∧
      entryAt t "energy" = (entryAt cP8 "energy").map (updPublic cV8w) := by
  obtain ⟨t, h1, _, h3⟩ := claim8_prefix_isolation cP8 "Apt1_"
    (of_all_not_isFail (fun a => pfxDec "Apt1_" cP8 a) (extensionAttrNames cP8) (by decide))
  exact ⟨t, h1,
    (h3 "radiance" (by decide)).1 cV8n rfl rfl,
    (h3 "energy" (by decide)).2.2 cV8 (fun _ => Except.ok cV8w) cV8w rfl rfl rfl⟩

/-- Claim C9: both duplicate-all and deserialize-all install the freshly
produced value with `setattr(self, '_' + n, ...)`: on an entry whose public
name is an accessor property the new value becomes publicly visible, but on
a plain public data attribute only the shadow underscore slot changes and
the public value still exposes the old object. -/
theorem claim9_underscore_slot (self orig q : Props) (d : Dict) :
    (∀ (hok : ∀ a ∈ extensionAttrNames self, (dupDec orig self a).isFail = false),
      ∃ t, duplicateExtensionAttr self orig = .ok t ∧
        ∀ n ∈ extensionAttrNames self, ∀ e v f w,
          entryAt self n = some e → getattrMem orig n = some (.ext v) →
          v.dup = some f → f self.hostId = .ok w →
          entryAt t n = some (updUnder w e) ∧
          (e.slot = Slot.plain → entryAt t n = some { e with shadow := some w }) ∧
          (e.slot = Slot.accessor → entryAt t n = some { e with value := w })) ∧
    (∀ (hok : ∀ a ∈ extensionAttrNames q, (loadDec d q a).isFail = false),
      ∃ t, loadExtensionAttrFromDict q d = .ok t ∧
        ∀ n ∈ extensionAttrNames q, ∀ e v f sub w,
          entryAt q n = some e → getattrMem q n = some (.ext v) →
          v.fromDict = some f → dictGet d n = some sub → f sub q.hostId = .ok w →
          entryAt t n = some (updUnder w e) ∧
          (e.slot = Slot.plain → entryAt t n = some { e with shadow := some w }) ∧
          (e.slot = Slot.accessor → entryAt t n = some { e with value := w })) := by
  constructor
  · intro hok
    obtain ⟨t, h1, _, _, _, _, h6⟩ := dupAll_master orig self hok
    refine ⟨t, h1, ?_⟩
    intro n hn e v f w he hv hf hw
    have hd : dupDec orig self n = .store w := by simp [dupDec, hv, hf, hw]
    have h := h6 n hn
    rw [hd, he] at h
    refine ⟨h, ?_, ?_⟩
    · intro hs
      rw [h]
      simp [updUnder, hs]
    · intro hs
      rw [h]
      simp [updUnder, hs]
  · intro hok
    obtain ⟨t, h1, _, _, _, _, h6⟩ := loadAll_master d q hok
    refine ⟨t, h1, ?_⟩
    intro n hn e v f sub w he hv hf hsub hw
    have hd : loadDec d q n = .store w := by simp [loadDec, hv, hf, hsub, hw]
    have h := h6 n hn
    rw [hd, he] at h
    refine ⟨h, ?_, ?_⟩
    · intro hs
      rw [h]
      simp [updUnder, hs]
    · intro hs
      rw [h]
      simp [updUnder, hs]

/-- Witness for C9: a plain-slot `energy` attribute on concrete door
properties; after duplicate-all and after deserialize-all the public value
field still holds the old object and the new value sits in the shadow
underscore slot. -/
theorem claim9_witness :
    (∃ t, duplicateExtensionAttr cSelf9 cOrig9 = .ok t ∧
      entryAt t "energy" =
        some { name := "energy", slot := Slot.plain, value := cV9plain, shadow := some cV9new }) ∧
    (∃ t, loadExtensionAttrFromDict cSelf9b cD9 = .ok t ∧
      entryAt t "energy" =
        some { name := "energy", slot := Slot.plain, value := cV9load, shadow := some cV9new }) := by
  constructor
  · obtain ⟨t, h1, h2⟩ := (claim9_underscore_slot cSelf9 cOrig9 cSelf9b cD9).1
      (of_all_not_isFail (fun a => dupDec cOrig9 cSelf9 a) (extensionAttrNames cSelf9) (by decide))
    refine ⟨t, h1, ?_⟩
    exact (h2 "energy" (by decide)
      { name := "energy", slot := Slot.plain, value := cV9plain, shadow := none }
      cV9orig (fun _ => Except.ok cV9new) cV9new rfl rfl rfl rfl).2.1 rfl
  · obtain ⟨t, h1, h2⟩ := (claim9_underscore_slot cSelf9 cOrig9 cSelf9b cD9).2
      (of_all_not_isFail (fun a => loadDec cD9 cSelf9b a) (extensionAttrNames cSelf9b) (by decide))
    refine ⟨t, h1, ?_⟩
    exact (h2 "energy" (by decide)
      { name := "energy", slot := Slot.plain, value := cV9load, shadow := none }
      cV9load (fun _ _ => Except.ok cV9new) cPayload cV9new rfl rfl rfl rfl rfl).2.1 rfl

/-- C2 as written is false on the code: `_load_extension_attr_from_dict`
wraps both the key lookup and the `from_dict` call in one
`try ... except KeyError: pass`, so a present-but-malformed sub-map whose
`from_dict` raises a `KeyError` is silently swallowed instead of failing the
call.  Concretely: the key `energy` IS present (bound to a non-map string),
the extension's `from_dict` rejects it with a `KeyError`, yet deserialize-all
succeeds and returns the properties unchanged. -/
theorem claim2_counterexample :
    dictGet cD2 "energy" = some (JVal.str "garbage") ∧
    cV2.fromDict = some cFromDictKeyErr ∧
    cFromDictKeyErr (JVal.str "garbage") cP2.hostId = Except.error (.keyError "people") ∧
    loadExtensionAttrFromDict cP2 cD2 = .ok cP2 :=
  ⟨rfl, rfl, rfl, rfl⟩

/-- Claim C2, amended: an attached extension name absent from the input map
is skipped without raising, leaving the entry at its pre-call value; a
present key whose `from_dict` fails with anything OTHER than a `KeyError`
fails the whole deserialize-all call (the error propagates unwrapped); but a
`from_dict` failure that is itself a `KeyError` is swallowed exactly like a
missing key, leaving the entry at its pre-call value. -/
theorem claim2_amended :
    (∀ (p : Props) (d : Dict),
      (∀ a ∈ extensionAttrNames p, (loadDec d p a).isFail = false) →
      ∃ t, loadExtensionAttrFromDict p d = .ok t ∧
        ∀ n ∈ extensionAttrNames p, ∀ v, getattrMem p n = some (.ext v) →
          (v.fromDict = none → entryAt t n = entryAt p n) ∧
          (∀ f, v.fromDict = some f → dictGet d n = none → entryAt t n = entryAt p n) ∧
          (∀ f sub k, v.fromDict = some f → dictGet d n = some sub →
            f sub p.hostId = .error (.keyError k) → entryAt t n = entryAt p n) ∧
          (∀ f sub w, v.fromDict = some f → dictGet d n = some sub →
            f sub p.hostId = .ok w → entryAt t n = (entryAt p n).map (updUnder w))) ∧
    (∀ (p : Props) (d : Dict) (l₁ : List String) (n : String) (l₂ : List String)
      (v : ExtVal) (f : JVal → Nat → Except PyErr ExtVal) (sub : JVal) (e : PyErr),
      extensionAttrNames p = l₁ ++ n :: l₂ →
      (∀ b ∈ l₁, (loadDec d p b).isFail = false) →
      getattrMem p n = some (.ext v) → v.fromDict = some f → dictGet d n = some sub →
      f sub p.hostId = .error e → (∀ k, e ≠ .keyError k) →
      loadExtensionAttrFromDict p d = .error e) := by
  constructor
  · intro p d hok
    obtain ⟨t, h1, _, _, _, _, h6⟩ := loadAll_master d p hok
    refine ⟨t, h1, ?_⟩
    intro n hn v hv
    refine ⟨?_, ?_, ?_, ?_⟩
    · intro hf
      have hd : loadDec d p n = .skip := by simp [loadDec, hv, hf]
      have h := h6 n hn
      rw [hd] at h
      exact h
    · intro f hf hsub
      have hd : loadDec d p n = .skip := by simp [loadDec, hv, hf, hsub]
      have h := h6 n hn
      rw [hd] at h
      exact h
    · intro f sub k hf hsub hke
      have hd : loadDec d p n = .skip := by simp [loadDec, hv, hf, hsub, hke]
      have h := h6 n hn
      rw [hd] at h
      exact h
    · intro f sub w hf hsub hw
      have hd : loadDec d p n = .store w := by simp [loadDec, hv, hf, hsub, hw]
      have h := h6 n hn
      rw [hd] at h
      exact h
  · intro p d l₁ n l₂ v f sub e hsplit hok hv hf hsub herr hke
    have hd : loadDec d p n = .fail e := by
      cases e with
      | keyError k => exact absurd rfl (hke k)
      | attributeError m => simp [loadDec, hv, hf, hsub, herr]
      | exception m => simp [loadDec, hv, hf, hsub, herr]
    show foldE (stepOf (loadDec d) setUnder) p (extensionAttrNames p) = .error e
    rw [hsplit]
    exact foldE_master_error (loadDec d) setUnder updUnder (loadDec_congr d)
      (fun s a w b h => entryAt_setUnder_other s h w)
      (fun s a w => entryAt_setUnder_self s a w)
      setUnder_hostId setUnder_variant setUnder_names
      l₁ n l₂ p e (hsplit ▸ extensionAttrNames_nodup p) hok hd

/-- Witness for C2 (amended): the `KeyError`-swallow case on `cP2`, and a
non-`KeyError` failure propagating on `cP2b`. -/
theorem claim2_witness :
    (∃ t, loadExtensionAttrFromDict cP2 cD2 = .ok t ∧
      entryAt t "energy" = entryAt cP2 "energy") ∧
    loadExtensionAttrFromDict cP2b cD2b = .error (.exception "bad sub-map") := by
  constructor
  · obtain ⟨t, h1, h2⟩ := claim2_amended.1 cP2 cD2
      (of_all_not_isFail (fun a => loadDec cD2 cP2 a) (extensionAttrNames cP2) (by decide))
    exact ⟨t, h1, (h2 "energy" (by decide) cV2 rfl).2.2.1 cFromDictKeyErr
      (JVal.str "garbage") "people" rfl rfl rfl⟩
  · exact claim2_amended.2 cP2b cD2b ["add_prefix"] "energy" ["reset_to_default"] cV2b
      cFromDictTypeErr (JVal.num 7) (.exception "bad sub-map") rfl
      (of_all_not_isFail (fun a => loadDec cD2b cP2b a) ["add_prefix"] (by decide))
      rfl rfl rfl rfl (fun k h => PyErr.noConfusion h)

/-- Claim C3: serialize-all with an empty allow-list merges nothing (the
target map comes back unchanged, so a variant's `to_dict` returns only its
`"type"` tag); with `include=["x"]` for an attached serialization-capable
`x` it merges exactly that extension's output and nothing else; and with no
allow-list every attached serialization-capable extension's keys appear in
the result. -/
theorem claim3_allowlist_filtering :
    (∀ (p : Props) (base : Dict) (ab : Bool),
      addExtensionAttrToDict p base ab (some []) = .ok base) ∧
    (∀ (p : Props) (ab : Bool),
      hostToDict p ab (some []) = .ok [("type", JVal.str (typeTag p.variant ab))]) ∧
    (∀ (p : Props) (base : Dict) (ab : Bool) (x : String) (v : ExtVal)
      (f : Option Bool → Except PyErr Dict) (d : Dict),
      getattrMem p x = some (.ext v) → v.toDict = some f → f (some ab) = .ok d →
      addExtensionAttrToDict p base ab (some [x]) = .ok (dictUpdate base d)) ∧
    (∀ (p : Props) (base r : Dict) (ab : Bool) (n : String) (v : ExtVal)
      (f : Option Bool → Except PyErr Dict) (d : Dict) (k : String),
      addExtensionAttrToDict p base ab none = .ok r → n ∈ extensionAttrNames p →
      getattrMem p n = some (.ext v) → v.toDict = some f → f (some ab) = .ok d →
      k ∈ dictKeys d → (dictGet r k).isSome = true) := by
  refine ⟨fun p base ab => rfl, fun p ab => rfl, ?_, ?_⟩
  · intro p base ab x v f d hv hf hd
    have hdx : serDec p (some ab) x = .store d := by simp [serDec, hv, hf, hd]
    show serFold p (some ab) base [x] = .ok (dictUpdate base d)
    rw [serFold_cons, hdx]
    rfl
  · intro p base r ab n v f d k hr hn hv hf hd hk
    have hdn : serDec p (some ab) n = .store d := by simp [serDec, hv, hf, hd]
    obtain ⟨l₁, l₂, hsplit⟩ := List.mem_iff_append.mp hn
    have hr' : serFold p (some ab) base (l₁ ++ n :: l₂) = .ok r := by
      rw [← hsplit]; exact hr
    obtain ⟨m, hm1, hm2⟩ := serFold_split hr'
    rw [serFold_cons, hdn] at hm2
    exact serFold_get_isSome l₂ (dictUpdate m d) r hm2 (dictGet_update_isSome_mem d m hk)

/-- Witness for C3: concrete face properties with `energy` and `radiance`
both serialization-capable. -/
theorem claim3_witness :
    addExtensionAttrToDict cP3 [("type", JVal.str "FaceProperties")] false (some []) =
      .ok [("type", JVal.str "FaceProperties")] ∧
    hostToDict cP3 false (some []) = .ok [("type", JVal.str "FaceProperties")] ∧
    addExtensionAttrToDict cP3 [("type", JVal.str "FaceProperties")] false (some ["energy"]) =
      .ok (dictUpdate [("type", JVal.str "FaceProperties")] [("energy", cPayload)]) ∧
    (dictGet (okOrD (addExtensionAttrToDict cP3 [] false none)) "radiance").isSome = true := by
  refine ⟨claim3_allowlist_filtering.1 cP3 _ false, claim3_allowlist_filtering.2.1 cP3 false,
    claim3_allowlist_filtering.2.2.1 cP3 _ false "energy" cV3
      (fun _ => Except.ok [("energy", cPayload)]) [("energy", cPayload)] rfl rfl rfl, ?_⟩
  exact claim3_allowlist_filtering.2.2.2 cP3 [] (okOrD (addExtensionAttrToDict cP3 [] false none))
    false "radiance" cV3r (fun _ => Except.ok [("radiance", JVal.str "mods")])
    [("radiance", JVal.str "mods")] "radiance" rfl (by decide) rfl rfl rfl (by decide)

/-- C4 as written is false on the code: the wrapping re-raise in
`_add_extension_attr_to_dict` interpolates `format(var, e)` — the string
representation of the failing VALUE, not the extension's attribute name.
Concretely: the extension attached under the name `energy` has a value whose
representation is `Blob`; its `to_dict` raises; serialize-all raises a
message that nowhere contains the string `energy`. -/
theorem claim4_counterexample :
    entryAt cP4 "energy" =
      some { name := "energy", slot := Slot.accessor, value := cV4, shadow := none } ∧
    hostToDict cP4 false none = .error (.exception cMsg4) ∧
    containsSub cMsg4 "energy" = false ∧ containsSub cMsg4 "Blob" = true :=
  ⟨rfl, rfl, by decide, by decide⟩

/-- Claim C4, amended: an attached extension whose `to_dict` raises causes
serialize-all to raise (the partially merged map is never returned as
success), and the raised error carries the failing VALUE's string
representation together with the underlying cause — the extension's
attribute name itself is not part of the message. -/
theorem claim4_amended (p : Props) (ab : Bool) (base : Dict) (l₁ : List String) (n : String)
    (l₂ : List String) (v : ExtVal) (f : Option Bool → Except PyErr Dict) (e : PyErr)
    (hsplit : extensionAttrNames p = l₁ ++ n :: l₂)
    (hok : ∀ b ∈ l₁, (serDec p (some ab) b).isFail = false)
    (hv : getattrMem p n = some (.ext v)) (hf : v.toDict = some f)
    (he : f (some ab) = .error e) :
    addExtensionAttrToDict p base ab none =
      .error (.exception ("Failed to convert " ++ v.rep ++ " to a dict: " ++ errText e)) := by
  have hdn : serDec p (some ab) n =
      .fail (.exception ("Failed to convert " ++ v.rep ++ " to a dict: " ++ errText e)) := by
    simp [serDec, hv, hf, he]
  show serFold p (some ab) base (extensionAttrNames p) = _
  rw [hsplit]
  exact serFold_error p (some ab) base l₁ n l₂ _ hok hdn

/-- Witness for C4 (amended) at the concrete `cP4`. -/
theorem claim4_witness :
    addExtensionAttrToDict cP4 [("type", JVal.str "RoomProperties")] false none =
      .error (.exception ("Failed to convert " ++ cV4.rep ++ " to a dict: " ++
        errText (.exception "boom"))) :=
  claim4_amended cP4 false [("type", JVal.str "RoomProperties")] ["add_prefix"] "energy"
    ["reset_to_default"] cV4 (fun _ => Except.error (.exception "boom")) (.exception "boom")
    rfl (of_all_not_isFail (fun a => serDec cP4 (some false) a) ["add_prefix"] (by decide))
    rfl rfl rfl

/-- C6 as written is false on the code: the inline enumeration inside
`ModelProperties.to_dict` filters only underscore-prefixed names and
`'host'`, so it DOES yield the reserved names `to_dict` and `ToString`
(here on a model-properties instance with no extensions at all; the yielded
bound methods are only skipped later by the capability probe). -/
theorem claim6_counterexample :
    "ToString" ∈ modelAttrNames cMP6 ∧ "to_dict" ∈ modelAttrNames cMP6 := by
  constructor
  · decide
  · decide

/-- Claim C6, amended: the shared base-class enumeration never yields an
underscore-prefixed name nor any member of the reserved
`_do_not_duplicate` set (`host`, `to_dict`, `ToString`), regardless of what
is installed; the inline enumeration of `ModelProperties.to_dict`, however,
only guarantees the exclusion of underscore-prefixed names and `host` — it
can and does yield `to_dict` and `ToString`. -/
theorem claim6_amended :
    (∀ (p : Props) (n : String), n ∈ extensionAttrNames p →
      underscored n = false ∧ ¬ n ∈ doNotDuplicate) ∧
    (∀ (p : Props) (n : String), n ∈ modelAttrNames p →
      underscored n = false ∧ n ≠ "host") := by
  constructor
  · intro p n hn
    exact ⟨(mem_extensionAttrNames.mp hn).2.1, (mem_extensionAttrNames.mp hn).2.2⟩
  · intro p n hn
    exact ⟨(mem_modelAttrNames.mp hn).2.1, (mem_modelAttrNames.mp hn).2.2⟩

/-- Witness for C6 (amended), at a concrete instance and name. -/
theorem claim6_witness :
    (underscored "energy" = false ∧ ¬ "energy" ∈ doNotDuplicate) ∧
    (underscored "ToString" = false ∧ "ToString" ≠ "host") :=
  ⟨claim6_amended.1 cSelf1 "energy" (by decide),
   claim6_amended.2 cMP6 "ToString" (by decide)⟩

/-- C7 as written is false on the code: nothing protects the `"type"` tag
during the shallow merge, so an extension whose `to_dict` output itself
contains a `"type"` key overwrites the host's tag.  Concretely, on a Room
with abridged=false the result's `"type"` is the extension's `"EVIL"`, not
`"RoomProperties"`. -/
theorem claim7_counterexample :
    hostToDict cP7 false none = .ok [("type", JVal.str "EVIL"), ("energy", JVal.str "x")] ∧
    typeTag cP7.variant false = "RoomProperties" ∧
    JVal.str "EVIL" ≠ JVal.str "RoomProperties" := by
  refine ⟨rfl, rfl, fun h => ?_⟩
  injection h with h'
  exact absurd h' (by decide)

/-- Claim C7, amended: each non-model variant tags its serialized form with
`"<V>Properties"` (abridged=false) or `"<V>PropertiesAbridged"`
(abridged=true) and the model always with `"ModelProperties"`, and that tag
is what the returned map's `"type"` key holds PROVIDED no selected
extension's output itself contains a `"type"` key; `ModelProperties.to_dict`
takes no abridged flag and invokes each extension's `to_dict` with no
abridged argument. -/
theorem claim7_amended :
    (∀ b : Bool, typeTag Variant.model b = "ModelProperties") ∧
    (typeTag Variant.room false = "RoomProperties" ∧
     typeTag Variant.room true = "RoomPropertiesAbridged" ∧
     typeTag Variant.face false = "FaceProperties" ∧
     typeTag Variant.face true = "FacePropertiesAbridged" ∧
     typeTag Variant.shade false = "ShadeProperties" ∧
     typeTag Variant.shade true = "ShadePropertiesAbridged" ∧
     typeTag Variant.aperture false = "ApertureProperties" ∧
     typeTag Variant.aperture true = "AperturePropertiesAbridged" ∧
     typeTag Variant.door false = "DoorProperties" ∧
     typeTag Variant.door true = "DoorPropertiesAbridged") ∧
    (∀ (p : Props) (ab : Bool) (incl : Option (List String)) (r : Dict),
      hostToDict p ab incl = .ok r →
      (∀ a ∈ incl.getD (extensionAttrNames p), ∀ d, serDec p (some ab) a = .store d →
        ¬ "type" ∈ dictKeys d) →
      dictGet r "type" = some (JVal.str (typeTag p.variant ab))) ∧
    (∀ (p : Props) (incl : Option (List String)) (r : Dict),
      modelToDict p incl = .ok r →
      (∀ a ∈ incl.getD (modelAttrNames p), ∀ d, serDec p none a = .store d →
        ¬ "type" ∈ dictKeys d) →
      dictGet r "type" = some (JVal.str "ModelProperties")) ∧
    (∀ (p : Props) (x : String) (v : ExtVal) (f : Option Bool → Except PyErr Dict) (d : Dict),
      getattrMem p x = some (.ext v) → v.toDict = some f → f none = .ok d →
      modelToDict p (some [x]) = .ok (dictUpdate [("type", JVal.str "ModelProperties")] d)) := by
  refine ⟨fun b => rfl, ⟨rfl, rfl, rfl, rfl, rfl, rfl, rfl, rfl, rfl, rfl⟩, ?_, ?_, ?_⟩
  · intro p ab incl r hr hno
    have hb := serFold_get_frame (incl.getD (extensionAttrNames p))
      [("type", JVal.str (typeTag p.variant ab))] r hr hno
    rw [hb, dictGet_singleton_self]
  · intro p incl r hr hno
    have hb := serFold_get_frame (incl.getD (modelAttrNames p))
      [("type", JVal.str "ModelProperties")] r hr hno
    rw [hb, dictGet_singleton_self]
  · intro p x v f d hv hf hd
    have hdx : serDec p none x = .store d := by simp [serDec, hv, hf, hd]
    show serFold p none [("type", JVal.str "ModelProperties")] [x] = _
    rw [serFold_cons, hdx]
    rfl

/-- Witness for C7 (amended): abridged tag on concrete face properties; the
model tag and the argument-less call on concrete model properties. -/
theorem claim7_witness :
    dictGet (okOrD (hostToDict cP3 true none)) "type" =
      some (JVal.str "FacePropertiesAbridged") ∧
    dictGet (okOrD (modelToDict cP7m none)) "type" = some (JVal.str "ModelProperties") ∧
    modelToDict cP7m (some ["energy"]) =
      .ok (dictUpdate [("type", JVal.str "ModelProperties")] [("energy", cPayload)]) := by
  refine ⟨?_, ?_, ?_⟩
  · exact claim7_amended.2.2.1 cP3 true none (okOrD (hostToDict cP3 true none)) rfl
      (not_emits_of_all cP3 (some true) "type" _ (by decide))
  · exact claim7_amended.2.2.2.1 cP7m none (okOrD (modelToDict cP7m none)) rfl
      (not_emits_of_all cP7m none "type" _ (by decide))
  · exact claim7_amended.2.2.2.2 cP7m "energy" cV7m (fun _ => Except.ok [("energy", cPayload)])
      [("energy", cPayload)] rfl rfl rfl

/-- Claim C10: serialize-all merges each selected extension's output into
the accumulating map by shallow last-writer-wins update in enumeration
order: whenever the extension at position `n` emits key `k` and no later
selected extension emits `k` again, the returned map's value at `k` is that
extension's own value — even when the base map (including its `"type"` tag)
or an earlier extension also wrote `k`. -/
theorem claim10_last_writer_wins (p : Props) (ab : Bool) (base r d : Dict)
    (l₁ l₂ : List String) (n k : String) (v : ExtVal) (f : Option Bool → Except PyErr Dict)
    (hsplit : extensionAttrNames p = l₁ ++ n :: l₂)
    (hr : addExtensionAttrToDict p base ab none = .ok r)
    (hv : getattrMem p n = some (.ext v)) (hf : v.toDict = some f)
    (hd : f (some ab) = .ok d) (hnd : (dictKeys d).Nodup) (hk : k ∈ dictKeys d)
    (hlater : ∀ b ∈ l₂, ∀ d', serDec p (some ab) b = .store d' → ¬ k ∈ dictKeys d') :
    dictGet r k = dictGet d k := by
  have hdn : serDec p (some ab) n = .store d := by simp [serDec, hv, hf, hd]
  have hr' : serFold p (some ab) base (l₁ ++ n :: l₂) = .ok r := by
    rw [← hsplit]; exact hr
  exact serFold_get_last hr' hdn hnd hk hlater

/-- Witness for C10: two concrete extensions `aaa` and `energy` both emit
`shared_key`; the later one (`energy`, which also overwrites `"type"`) wins. -/
theorem claim10_witness :
    dictGet (okOrD (addExtensionAttrToDict cP10 [("shared_key", JVal.str "from_base")] false none))
      "shared_key" = some (JVal.str "from_energy") := by
  have h := claim10_last_writer_wins cP10 false [("shared_key", JVal.str "from_base")]
    (okOrD (addExtensionAttrToDict cP10 [("shared_key", JVal.str "from_base")] false none))
    [("shared_key", JVal.str "from_energy"), ("type", JVal.str "E2")]
    ["aaa", "add_prefix"] ["reset_to_default"] "energy" "shared_key" cV10e
    (fun _ => Except.ok [("shared_key", JVal.str "from_energy"), ("type", JVal.str "E2")])
    rfl rfl rfl rfl rfl (by decide) (by decide)
    (not_emits_of_all cP10 (some false) "shared_key" ["reset_to_default"] (by decide))
  rw [h]
  rfl

/-- Claim C5: round-trip.  For a Properties instance `p` whose attached
extensions are all serialization-capable and consistent — each emits its
own name as the single key of its `to_dict(false)` output, and the matching
target entry's class-level `from_dict` reconstructs from that payload a
value whose own `to_dict(false)` output is structurally equal — running
deserialize-all (on a target `q` with the same attached names, standard
accessor slots, arbitrary current values) over the output of serialize-all
with abridged=false succeeds and yields an instance with the same attached
extension-name list whose per-extension `to_dict` outputs equal the
original's. -/
theorem claim5_roundtrip (p q : Props)
    (hq_names : q.exts.map ExtEntry.name = p.exts.map ExtEntry.name)
    (hnd : (p.exts.map ExtEntry.name).Nodup)
    (hslots : ∀ e ∈ q.exts, e.slot = Slot.accessor)
    (hgood : ∀ e ∈ p.exts, underscored e.name = false ∧ ¬ e.name ∈ doNotDuplicate)
    (hser : ∀ e ∈ p.exts, ∃ f payload, e.value.toDict = some f ∧
      f (some false) = Except.ok [(e.name, payload)] ∧
      ∀ eq2 ∈ q.exts, eq2.name = e.name → ∃ fq w g, eq2.value.fromDict = some fq ∧
        fq payload q.hostId = Except.ok w ∧ w.toDict = some g ∧
        g (some false) = Except.ok [(e.name, payload)]) :
    ∃ D t, hostToDict p false none = .ok D ∧ loadExtensionAttrFromDict q D = .ok t ∧
      t.exts.map ExtEntry.name = p.exts.map ExtEntry.name ∧
      ∀ e ∈ p.exts, ∃ et g payload f, entryAt t e.name = some et ∧
        et.value.toDict = some g ∧ g (some false) = Except.ok [(e.name, payload)] ∧
        e.value.toDict = some f ∧ f (some false) = Except.ok [(e.name, payload)] := by
  classical
  choose F P hF hFP hQ using hser
  have hmem_enum : ∀ e ∈ p.exts, e.name ∈ extensionAttrNames p := fun e he =>
    mem_extensionAttrNames.mpr
      ⟨extName_mem_memberNames (List.mem_map_of_mem ExtEntry.name he),
       (hgood e he).1, (hgood e he).2⟩
  -- shape of every serialization decision
  have hdecS : ∀ a ∈ extensionAttrNames p, serDec p (some false) a = .skip ∨
      ∃ e, ∃ he : e ∈ p.exts, e.name = a ∧
        serDec p (some false) a = .store [(a, P e he)] := by
    intro a ha
    cases hEnt : entryAt p a with
    | none =>
      rcases mem_memberNames_cases (mem_extensionAttrNames.mp ha).1
          (mem_extensionAttrNames.mp ha).2.1 with hm | hnm
      · exact Or.inl (by simp [serDec, getattrMem_meth hEnt hm])
      · obtain ⟨e0, he0⟩ := exists_entryAt_of_mem_names hnm
        rw [he0] at hEnt
        cases hEnt
    | some e =>
      obtain ⟨hm, hname⟩ := entryAt_name hEnt
      refine Or.inr ⟨e, hm, hname, ?_⟩
      have hp := hFP e hm
      rw [hname] at hp
      simp [serDec, getattrMem_ext hEnt, hF e hm, hp]
  have hSok : ∀ a ∈ extensionAttrNames p, (serDec p (some false) a).isFail = false := by
    intro a ha
    rcases hdecS a ha with h | ⟨e, he, _, h⟩ <;> simp [h, SDec.isFail]
  obtain ⟨D, hD⟩ := serFold_ok p (some false) (extensionAttrNames p)
    [("type", JVal.str (typeTag p.variant false))] hSok
  have hDok : hostToDict p false none = .ok D := hD
  -- the serialized dictionary holds each extension's payload under its name
  have hDget : ∀ e (he : e ∈ p.exts), dictGet D e.name = some (P e he) := by
    intro e he
    obtain ⟨l₁, l₂, hsp⟩ := List.mem_iff_append.mp (hmem_enum e he)
    have hdn : serDec p (some false) e.name = .store [(e.name, P e he)] := by
      simp [serDec, getattrMem_ext (entryAt_of_mem hnd he), hF e he, hFP e he]
    have hr' : serFold p (some false) [("type", JVal.str (typeTag p.variant false))]
        (l₁ ++ e.name :: l₂) = .ok D := by
      rw [← hsp]; exact hD
    have hnotin : e.name ∉ l₂ := by
      have hx := hsp ▸ extensionAttrNames_nodup p
      exact (List.nodup_cons.mp (List.nodup_append.mp hx).2.1).1
    have hlater : ∀ b ∈ l₂, ∀ d', serDec p (some false) b = .store d' →
        ¬ e.name ∈ dictKeys d' := by
      intro b hb d' hbd hkk
      have hbe : b ∈ extensionAttrNames p := by
        rw [hsp]
        exact List.mem_append_right _ (List.mem_cons_of_mem _ hb)
      rcases hdecS b hbe with hsk | ⟨e2, he2, _, hst⟩
      · rw [hsk] at hbd; cases hbd
      · rw [hst] at hbd
        cases hbd
        have hbeq : e.name = b := by simpa [dictKeys] using hkk
        exact hnotin (hbeq ▸ hb)
    have hfin := serFold_get_last hr' hdn (by simp [dictKeys]) (by simp [dictKeys]) hlater
    rw [hfin, dictGet_singleton_self]
  -- every load decision on a matching target entry stores a consistent value
  have hLoad : ∀ e (he : e ∈ p.exts), ∀ eq2, entryAt q e.name = some eq2 →
      ∃ w g, loadDec D q e.name = .store w ∧ w.toDict = some g ∧
        g (some false) = Except.ok [(e.name, P e he)] := by
    intro e he eq2 hEnt
    obtain ⟨hqm, hqname⟩ := entryAt_name hEnt
    obtain ⟨fq, w, g, hfq, hfqw, hwg, hgp⟩ := hQ e he eq2 hqm hqname
    refine ⟨w, g, ?_, hwg, hgp⟩
    simp [loadDec, getattrMem_ext hEnt, hfq, hDget e he, hfqw]
  have hLok : ∀ a ∈ extensionAttrNames q, (loadDec D q a).isFail = false := by
    intro a ha
    cases hEnt : entryAt q a with
    | none =>
      rcases mem_memberNames_cases (mem_extensionAttrNames.mp ha).1
          (mem_extensionAttrNames.mp ha).2.1 with hm | hnm
      · simp [loadDec, getattrMem_meth hEnt hm, SDec.isFail]
      · obtain ⟨e0, he0⟩ := exists_entryAt_of_mem_names hnm
        rw [he0] at hEnt
        cases hEnt
    | some eq2 =>
      obtain ⟨hqm, hqname⟩ := entryAt_name hEnt
      have hap : a ∈ p.exts.map ExtEntry.name := by
        rw [← hq_names]
        exact hqname ▸ List.mem_map_of_mem ExtEntry.name hqm
      obtain ⟨e, he, hename⟩ := List.mem_map.mp hap
      have hEnt' : entryAt q e.name = some eq2 := by rw [hename]; exact hEnt
      obtain ⟨w, g, hld, _, _⟩ := hLoad e he eq2 hEnt'
      have hld' : loadDec D q a = .store w := by rw [← hename]; exact hld
      simp [hld', SDec.isFail]
  obtain ⟨t, ht1, _, _, htn, _, h6⟩ := loadAll_master D q hLok
  refine ⟨D, t, hDok, ht1, by rw [htn, hq_names], ?_⟩
  intro e he
  have hqmem : e.name ∈ q.exts.map ExtEntry.name := by
    rw [hq_names]
    exact List.mem_map_of_mem ExtEntry.name he
  obtain ⟨eq2, hEnt⟩ := exists_entryAt_of_mem_names hqmem
  obtain ⟨hqm, _⟩ := entryAt_name hEnt
  obtain ⟨w, g, hld, hwg, hgp⟩ := hLoad e he eq2 hEnt
  have hna : e.name ∈ extensionAttrNames q :=
    mem_extensionAttrNames.mpr
      ⟨extName_mem_memberNames hqmem, (hgood e he).1, (hgood e he).2⟩
  have h := h6 e.name hna
  rw [hld, hEnt] at h
  have hslot := hslots eq2 hqm
  have hval : (updUnder w eq2).value = w := by simp [updUnder, hslot]
  refine ⟨updUnder w eq2, g, P e he, F e he, h, ?_, hgp, hF e he, hFP e he⟩
  rw [hval]
  exact hwg

/-- Witness for C5: concrete room properties with a single consistent
`energy` extension, round-tripped onto themselves. -/
theorem claim5_witness :
    ∃ D t, hostToDict cP5 false none = .ok D ∧ loadExtensionAttrFromDict cP5 D = .ok t ∧
      t.exts.map ExtEntry.name = cP5.exts.map ExtEntry.name ∧
      ∀ e ∈ cP5.exts, ∃ et g payload f, entryAt t e.name = some et ∧
        et.value.toDict = some g ∧ g (some false) = Except.ok [(e.name, payload)] ∧
        e.value.toDict = some f ∧ f (some false) = Except.ok [(e.name, payload)] := by
  refine claim5_roundtrip cP5 cP5 rfl (by decide) ?_ ?_ ?_
  · intro e he
    have : e = { name := "energy", slot := Slot.accessor, value := cE5, shadow := none } := by
      simpa [cP5] using he
    rw [this]
  · intro e he
    have : e = { name := "energy", slot := Slot.accessor, value := cE5, shadow := none } := by
      simpa [cP5] using he
    rw [this]
    exact ⟨rfl, by decide⟩
  · intro e he
    have heq : e = { name := "energy", slot := Slot.accessor, value := cE5, shadow := none } := by
      simpa [cP5] using he
    subst heq
    refine ⟨fun _ => Except.ok [("energy", cPayload)], cPayload, rfl, rfl, ?_⟩
    intro eq2 hq2 hname
    have heq2 : eq2 = { name := "energy", slot := Slot.accessor, value := cE5, shadow := none } := by
      simpa [cP5] using hq2
    subst heq2
    exact ⟨fun _ _ => Except.ok cE5new, cE5new, fun _ => Except.ok [("energy", cPayload)],
      rfl, rfl, rfl, rfl⟩
